import Mathlib

/-!
Verification of the flystorage core (façade + path-safety subsystem).

The embedding models JavaScript strings as `List Char` (one entry per Unicode
scalar value).  The repository functions under scrutiny are:

* `packages/file-storage/src/path-normalizer.ts` — `PathNormalizerV1.normalizePath`,
  built on Node's `path.join` (posix flavour);
* `packages/file-storage/src/path-prefixer.ts` — `PathPrefixer`;
* `packages/file-storage/src/file-storage.ts` — the `FileStorage` façade,
  `DirectoryListing`, `closeReadable`, and the checksum fallback via
  `checksum-from-stream.ts`.

Node's `path.posix.join`/`normalize` are external library code; they are
embedded below from their well-known segment-resolution semantics
(`normalizeString` stack walk).
-/

namespace Flystorage

instance exceptDecEq {ε α : Type} [DecidableEq ε] [DecidableEq α] :
    DecidableEq (Except ε α) := fun x y =>
  match x, y with
  | .ok a, .ok b => decidable_of_iff (a = b) (by simp)
  | .error a, .error b => decidable_of_iff (a = b) (by simp)
  | .ok _, .error _ => isFalse (by simp)
  | .error _, .ok _ => isFalse (by simp)

/-- Model of the characters matched by the regular expression `\p{C}` (Unicode
category "Other") used by `funkyWhiteSpaceRegex` in `path-normalizer.ts`.
Covers Cc (controls), Cf (format) and Co (private use) in full.  Cs
(surrogates) is unrepresentable here because a Lean `Char` is a Unicode scalar
value, and Cn (unassigned) depends on the Unicode version of the JS engine and
is not modelled; every claim below uses this same classifier on both sides, so
none of the verdicts depends on the classifier's extension beyond ASCII. -/
def isUnicodeOtherCategory (c : Char) : Bool :=
  let n := c.toNat
  (n ≤ 0x1f) || (0x7f ≤ n && n ≤ 0x9f) ||
  (n == 0xad) || (0x600 ≤ n && n ≤ 0x605) || n == 0x61c || n == 0x6dd || n == 0x70f ||
  (0x890 ≤ n && n ≤ 0x891) || n == 0x8e2 || n == 0x180e ||
  (0x200b ≤ n && n ≤ 0x200f) || (0x202a ≤ n && n ≤ 0x202e) ||
  (0x2060 ≤ n && n ≤ 0x2064) || (0x2066 ≤ n && n ≤ 0x206f) ||
  n == 0xfeff || (0xfff9 ≤ n && n ≤ 0xfffb) ||
  n == 0x110bd || n == 0x110cd || (0x13430 ≤ n && n ≤ 0x1343f) ||
  (0x1bca0 ≤ n && n ≤ 0x1bca3) || (0x1d173 ≤ n && n ≤ 0x1d17a) ||
  n == 0xe0001 || (0xe0020 ≤ n && n ≤ 0xe007f) ||
  (0xe000 ≤ n && n ≤ 0xf8ff) || (0xf0000 ≤ n && n ≤ 0xffffd) ||
  (0x100000 ≤ n && n ≤ 0x10fffd)

/-- `funkyWhiteSpaceRegex.test(path)` from `path-normalizer.ts`. -/
def hasFunkyWhitespace (l : List Char) : Bool := l.any isUnicodeOtherCategory

/-- One step of Node's `normalizeString` segment walk (posix): empty and `.`
segments are skipped; `..` pops the nearest real parent, and otherwise is kept
only when the path is relative (`allowAboveRoot`); any other segment is pushed.
The accumulator is the stack with its top at the head. -/
def resolvePop (allowAboveRoot : Bool) : List (List Char) → List (List Char)
  | [] => if allowAboveRoot then [['.', '.']] else []
  | top :: rest =>
    if top = ['.', '.'] then (if allowAboveRoot then ['.', '.'] :: top :: rest else top :: rest)
    else rest

def resolveStep (allowAboveRoot : Bool) (acc : List (List Char)) (seg : List Char) :
    List (List Char) :=
  if seg = [] || seg = ['.'] then acc
  else if seg = ['.', '.'] then resolvePop allowAboveRoot acc
  else seg :: acc

/-- Node's `normalizeString` over the list of `/`-separated segments. -/
def resolveSegments (allowAboveRoot : Bool) (segs : List (List Char)) : List (List Char) :=
  (segs.foldl (resolveStep allowAboveRoot) []).reverse

/-- Node's `path.posix.normalize`. -/
def posixNormalize (p : List Char) : List Char :=
  if p = [] then ['.']
  else
    let isAbsolute := p.head? = some '/'
    let trailingSeparator := p.getLast? = some '/'
    let r := resolveSegments (!isAbsolute) (p.splitOn '/')
    if r = [] then
      if isAbsolute then ['/'] else if trailingSeparator then ['.', '/'] else ['.']
    else
      let s := List.intercalate ['/'] r
      let s' := if trailingSeparator then s ++ ['/'] else s
      if isAbsolute then '/' :: s' else s'

/-- Node's `path.posix.join`: drop empty arguments, concatenate with `/`,
normalize; with nothing left the result is `"."`. -/
def posixJoin (args : List (List Char)) : List Char :=
  let parts := args.filter (· ≠ [])
  if parts = [] then ['.'] else posixNormalize (List.intercalate ['/'] parts)

/-- `l` starts with the three characters `../`. -/
def startsWithDotDotSlash (l : List Char) : Bool :=
  match l with
  | c1 :: c2 :: c3 :: _ => c1 = '.' && c2 = '.' && c3 = '/'
  | _ => false

/-- `normalized.indexOf('../') !== -1` from `path-normalizer.ts`: some position
of `l` starts the three characters `../`. -/
def hasDotDotSlash : List Char → Bool
  | [] => false
  | c :: rest => startsWithDotDotSlash (c :: rest) || hasDotDotSlash rest

/-- The two failure modes of `PathNormalizerV1.normalizePath`
(`CorruptedPathDetected`, `PathTraversalDetected`). -/
inductive PathError where
  | corruptedPathDetected
  | pathTraversalDetected
deriving DecidableEq

/-- `PathNormalizerV1.normalizePath` from `path-normalizer.ts`:
reject `\p{C}` characters, `join(...path.split('/'))`, reject when the joined
result contains `../` or equals `..`, and map `"."` to `""`. -/
def normalizePathChars (path : List Char) : Except PathError (List Char) :=
  if hasFunkyWhitespace path then .error .corruptedPathDetected
  else
    let normalized := posixJoin (path.splitOn '/')
    if hasDotDotSlash normalized || normalized = ['.', '.'] then .error .pathTraversalDetected
    else .ok (if normalized = ['.'] then [] else normalized)

/-- String-level wrapper of `normalizePathChars`. -/
def normalizePath (path : String) : Except PathError String :=
  (normalizePathChars path.data).map fun l => String.mk l

/-- `path.replace(/\/+$/g, '')`: drop every trailing `/`. -/
def dropTrailingSlashes (p : List Char) : List Char :=
  (p.reverse.dropWhile (fun c => c = '/')).reverse

namespace PathPrefixer

/-- The `prefix` field computed by the `PathPrefixer` constructor with the
default separator `'/'` and default `joinFunc` (Node posix `join`):
`join(prefix, '/')` when the given prefix is nonempty, else `''`.
JS `substring` counts UTF-16 units while this model counts scalar values; the
two agree whenever the stripped string literally starts with the stored
prefix, which covers every statement proved below. -/
def prefixValue (givenPrefix : List Char) : List Char :=
  if givenPrefix.length > 0 then posixJoin [givenPrefix, ['/']] else []

/-- `prefixFilePath` from `path-prefixer.ts`. -/
def prefixFilePath (givenPrefix p : List Char) : List Char :=
  let pre := prefixValue givenPrefix
  if pre.length > 0 then posixJoin [pre, p] else p

/-- `prefixDirectoryPath` from `path-prefixer.ts`. -/
def prefixDirectoryPath (givenPrefix p : List Char) : List Char :=
  let pre := prefixValue givenPrefix
  if pre.length > 0 then posixJoin [pre, p, ['/']] else posixJoin [p, ['/']]

/-- `stripFilePath` from `path-prefixer.ts`. -/
def stripFilePath (givenPrefix p : List Char) : List Char :=
  p.drop (prefixValue givenPrefix).length

/-- `stripDirectoryPath` from `path-prefixer.ts`. -/
def stripDirectoryPath (givenPrefix p : List Char) : List Char :=
  dropTrailingSlashes (stripFilePath givenPrefix p)

end PathPrefixer

/-- `s` ends with the two characters `..`. -/
def endsWithDotDot : List Char → Bool
  | [c1, c2] => c1 = '.' && c2 = '.'
  | _ :: c2 :: c3 :: rest => endsWithDotDot (c2 :: c3 :: rest)
  | _ => false

/-- The resolved (stack-walked) segment sequence of a path, as produced inside
`join(...path.split('/'))` for the relative strings built by `normalizePath`. -/
def normalizedSegments (p : List Char) : List (List Char) :=
  resolveSegments true ((p.splitOn '/').filter (fun s => s ≠ []))

/-- The shape invariant of the resolution stack: every `..` entry sits at the
bottom (list tail), so in the reversed output all `..` segments are leading. -/
def StackShape (acc : List (List Char)) : Prop :=
  ∃ front dds, acc = front ++ dds ∧ ['.', '.'] ∉ front ∧ ∀ y ∈ dds, y = ['.', '.']

/-- A whole `/`-separated segment that survives normalization unchanged. -/
def goodSegment (s : List Char) : Bool :=
  s ≠ [] && s ≠ ['.'] && s ≠ ['.', '.']

/-- Canonicality as corrected by claim C2's counterexample: additionally to
the claim's conditions, no empty segment (hence no `//`) and no segment other
than the last one ending in the two characters `..`. -/
def isCanonicalAmended (p : List Char) : Bool :=
  !hasFunkyWhitespace p && (p.splitOn '/').all goodSegment &&
    !(p.splitOn '/').dropLast.any endsWithDotDot

/-- Canonicality transcribed from claim C2's own words: no `.` or `..`
segments, no leading or trailing `/`, no `\p{C}` characters. -/
def isCanonicalClaim (p : List Char) : Bool :=
  !hasFunkyWhitespace p &&
    (p.splitOn '/').all (fun s => s ≠ ['.'] && s ≠ ['.', '.']) &&
    !(p.head? = some '/') && !(p.getLast? = some '/')

/-- A path made only of good whole segments: nonempty, and with no empty, `.`
or `..` segment (hence no leading, trailing or doubled `/`). -/
def goodPath (p : List Char) : Bool := (p.splitOn '/').all goodSegment

/-!
Model of Node `crypto`'s MD5 (RFC 1321), used by `checksum-from-stream.ts`
through `createHash('md5')`.  Bytes are `Nat` values below 256; words are
`Nat` values reduced modulo `2 ^ 32`.
-/
/-- The 64 per-round shift amounts of MD5. -/
def md5S : List Nat :=
  [7, 12, 17, 22, 7, 12, 17, 22, 7, 12, 17, 22, 7, 12, 17, 22,
   5, 9, 14, 20, 5, 9, 14, 20, 5, 9, 14, 20, 5, 9, 14, 20,
   4, 11, 16, 23, 4, 11, 16, 23, 4, 11, 16, 23, 4, 11, 16, 23,
   6, 10, 15, 21, 6, 10, 15, 21, 6, 10, 15, 21, 6, 10, 15, 21]

/-- The 64 sine-derived MD5 constants. -/
def md5K : List Nat :=
  [0xd76aa478, 0xe8c7b756, 0x242070db, 0xc1bdceee, 0xf57c0faf, 0x4787c62a, 0xa8304613, 0xfd469501,
   0x698098d8, 0x8b44f7af, 0xffff5bb1, 0x895cd7be, 0x6b901122, 0xfd987193, 0xa679438e, 0x49b40821,
   0xf61e2562, 0xc040b340, 0x265e5a51, 0xe9b6c7aa, 0xd62f105d, 0x02441453, 0xd8a1e681, 0xe7d3fbc8,
   0x21e1cde6, 0xc33707d6, 0xf4d50d87, 0x455a14ed, 0xa9e3e905, 0xfcefa3f8, 0x676f02d9, 0x8d2a4c8a,
   0xfffa3942, 0x8771f681, 0x6d9d6122, 0xfde5380c, 0xa4beea44, 0x4bdecfa9, 0xf6bb4b60, 0xbebfbc70,
   0x289b7ec6, 0xeaa127fa, 0xd4ef3085, 0x04881d05, 0xd9d4d039, 0xe6db99e5, 0x1fa27cf8, 0xc4ac5665,
   0xf4292244, 0x432aff97, 0xab9423a7, 0xfc93a039, 0x655b59c3, 0x8f0ccc92, 0xffeff47d, 0x85845dd1,
   0x6fa87e4f, 0xfe2ce6e0, 0xa3014314, 0x4e0811a1, 0xf7537e82, 0xbd3af235, 0x2ad7d2bb, 0xeb86d391]

def leftrotate (x n : Nat) : Nat := ((x <<< n) ||| (x >>> (32 - n))) % 4294967296

/-- MD5 padding: `0x80`, zeros to 56 mod 64, then the bit length in 8
little-endian bytes. -/
def md5Pad (msg : List Nat) : List Nat :=
  let len := msg.length
  let bitLen := (len * 8) % 18446744073709551616
  msg ++ 128 :: List.replicate ((56 + 64 - ((len + 1) % 64)) % 64) 0 ++
    (List.range 8).map (fun i => (bitLen >>> (8 * i)) % 256)

/-- The 16 little-endian words of a 64-byte block. -/
def md5Words (block : List Nat) : List Nat :=
  (List.range 16).map (fun i =>
    block.getD (4 * i) 0 + 256 * block.getD (4 * i + 1) 0 +
      65536 * block.getD (4 * i + 2) 0 + 16777216 * block.getD (4 * i + 3) 0)

/-- The MD5 round function for round `i`. -/
def md5F (i b c d : Nat) : Nat :=
  if i < 16 then (b &&& c) ||| ((4294967295 ^^^ b) &&& d)
  else if i < 32 then (d &&& b) ||| ((4294967295 ^^^ d) &&& c)
  else if i < 48 then b ^^^ c ^^^ d
  else c ^^^ (b ||| (4294967295 ^^^ d))

/-- The message-word index used in round `i`. -/
def md5G (i : Nat) : Nat :=
  if i < 16 then i
  else if i < 32 then (5 * i + 1) % 16
  else if i < 48 then (3 * i + 5) % 16
  else (7 * i) % 16

def md5Step (M : List Nat) (st : Nat × Nat × Nat × Nat) (i : Nat) : Nat × Nat × Nat × Nat :=
  let f := (md5F i st.2.1 st.2.2.1 st.2.2.2 + st.1 + md5K.getD i 0 +
    M.getD (md5G i) 0) % 4294967296
  (st.2.2.2, (st.2.1 + leftrotate f (md5S.getD i 0)) % 4294967296, st.2.1, st.2.2.1)

def md5Block (st : Nat × Nat × Nat × Nat) (block : List Nat) : Nat × Nat × Nat × Nat :=
  let M := md5Words block
  let r := (List.range 64).foldl (md5Step M) st
  ((st.1 + r.1) % 4294967296, (st.2.1 + r.2.1) % 4294967296,
    (st.2.2.1 + r.2.2.1) % 4294967296, (st.2.2.2 + r.2.2.2) % 4294967296)

def md5Bytes (msg : List Nat) : List Nat :=
  let padded := md5Pad msg
  let blocks := (List.range (padded.length / 64)).map
    (fun i => (padded.drop (64 * i)).take 64)
  let st := blocks.foldl md5Block (0x67452301, 0xefcdab89, 0x98badcfe, 0x10325476)
  List.flatten ([st.1, st.2.1, st.2.2.1, st.2.2.2].map
    (fun w => (List.range 4).map (fun i => (w >>> (8 * i)) % 256)))

def hexDigit (n : Nat) : Char := if n < 10 then Char.ofNat (48 + n) else Char.ofNat (87 + n)

/-- Lowercase hexadecimal digest, as produced by `hash.digest('hex')`. -/
def md5Hex (msg : List Nat) : String :=
  String.mk (List.flatten ((md5Bytes msg).map (fun b => [hexDigit (b / 16), hexDigit (b % 16)])))

/-- The UTF-8 bytes of an ASCII string (all claim inputs are ASCII). -/
def utf8BytesAscii (s : String) : List Nat := s.data.map Char.toNat

/-!
Embedding of the `FileStorage` façade (`file-storage.ts`).  JavaScript
exceptions are values of `JsError`; promises are collapsed to `Except`
results; adapter methods are pure functions supplied as parameters, so "the
adapter is never invoked" is expressed by the result not depending on them.
The timeout/abort-signal instrumentation (`instrumentAbortSignal`) is not
modelled: no claim below concerns cancellation or real time.
-/
/-- The JS error values the claims are about: the two normalizer errors, the
recoverable checksum signal, arbitrary backend failures, plain `Error` /
`TypeError`, and the taxonomy wrappers from `errors.ts` carrying their
`cause` (the sentinel `noCause` when thrown without one) and the context
fields the claims mention.  Error messages and remaining context fields are not modelled. -/
inductive JsError where
  | noCause
  | corruptedPathDetected (path : String)
  | pathTraversalDetected (path : String)
  | checksumIsNotAvailable (algo : String)
  | fileWasNotFound (msg : String)
  | adapterFailure (msg : String)
  | typeError (msg : String)
  | genericError (msg : String)
  | unableToWriteFile (cause : JsError)
  | unableToGetStat (cause : JsError)
  | unableToReadFile (cause : JsError)
  | unableToGetChecksum (cause : JsError)
  | unableToGetVisibility (cause : JsError)
  | unableToSetVisibility (cause : JsError)
  | unableToListDirectory (path : String) (deep : Bool) (cause : JsError)
  | unableToPrepareUploadRequest (cause : JsError)
deriving DecidableEq

/-- The exceptions of `path-normalizer.ts` as JS error values. -/
def pathErrorToJs (path : String) : PathError → JsError
  | .corruptedPathDetected => .corruptedPathDetected path
  | .pathTraversalDetected => .pathTraversalDetected path

/-- `ChecksumIsNotAvailable.isErrorOfType` (code check). -/
def isChecksumIsNotAvailable : JsError → Bool
  | .checksumIsNotAvailable _ => true
  | _ => false

/-- Modelled from the spec: `isFileWasNotFound` lives in `errors.ts`, which is
not under `src/`; per §6, `read` "must signal a distinguishable not-found
condition" that the façade detects. -/
def isFileWasNotFound : JsError → Bool
  | .fileWasNotFound _ => true
  | _ => false

/-- `closeReadable`: destroys the stream unless it is already
closed/destroyed; in either case the stream ends up destroyed.  Stream state
is its `closed || destroyed` flag. -/
def closeReadableM (destroyed : Bool) : Bool := destroyed || true

/-- `FileStorage.write`, instrumented with the content stream's state.
`toReadable(contents)` creates the stream open (`false`); the adapter is a
function of the normalized path and the stream state returning its outcome
and the stream state it leaves behind; `closeReadable(body)` runs only after
a successful adapter call, and the whole try-block (the `normalizePath` call
included) is wrapped into `UnableToWriteFile`. -/
def FileStorage.writeTraced (adapterWrite : String → Bool → Except JsError Unit × Bool)
    (path : String) : Except JsError Unit × Bool :=
  let body := false
  match normalizePath path with
  | .error e => (.error (.unableToWriteFile (pathErrorToJs path e)), body)
  | .ok np =>
    match adapterWrite np body with
    | (.ok _, s) => (.ok (), closeReadableM s)
    | (.error e, s) => (.error (.unableToWriteFile e), s)

/-- `FileStorage.write`'s result alone. -/
def FileStorage.write (adapterWrite : String → Bool → Except JsError Unit × Bool)
    (path : String) : Except JsError Unit :=
  (FileStorage.writeTraced adapterWrite path).1

/-- Minimal `StatEntry`. -/
structure StatEntryM where
  path : String
  isFile : Bool
deriving DecidableEq

/-- `FileStorage.stat`: the `normalizePath` call sits inside the try-block,
so its exceptions are wrapped like adapter failures. -/
def FileStorage.stat (adapterStat : String → Except JsError StatEntryM) (path : String) :
    Except JsError StatEntryM :=
  match normalizePath path with
  | .error e => .error (.unableToGetStat (pathErrorToJs path e))
  | .ok np =>
    match adapterStat np with
    | .ok st => .ok st
    | .error e => .error (.unableToGetStat e)

/-- `FileStorage.read` at the value level: file contents are the bytes the
returned stream delivers; adapter errors are wrapped into `UnableToReadFile`
(for both the not-found and the generic constructor the original error is the
`cause`; the message difference is not modelled).  The `PassThrough` piping
of in-flight stream errors is outside this value-level model. -/
def FileStorage.read (adapterRead : String → Except JsError (List Nat)) (path : String) :
    Except JsError (List Nat) :=
  match normalizePath path with
  | .error e => .error (.unableToReadFile (pathErrorToJs path e))
  | .ok np =>
    match adapterRead np with
    | .ok contents => .ok contents
    | .error e => .error (.unableToReadFile e)

structure ChecksumOptionsM where
  algo : Option String := none
  encoding : Option String := none
deriving DecidableEq

/-- `checksum-from-stream.ts`: hash the streamed bytes with
`createHash(options.algo ?? 'md5')` and digest with
`options.encoding ?? 'hex'`.  Node crypto is modelled for the md5/hex case
exercised by the claims; other algorithms/encodings are out of the model. -/
def checksumFromStream (contents : List Nat) (options : ChecksumOptionsM) :
    Except JsError String :=
  if options.algo.getD "md5" = "md5" && options.encoding.getD "hex" = "hex" then
    .ok (md5Hex contents)
  else .error (.genericError "algorithm or encoding outside the modelled md5/hex case")

/-- `FileStorage.calculateChecksum`: read the file through the façade, hash
the stream, and wrap any failure into `UnableToGetChecksum`. -/
def FileStorage.calculateChecksum (adapterRead : String → Except JsError (List Nat))
    (path : String) (options : ChecksumOptionsM) : Except JsError String :=
  match FileStorage.read adapterRead path with
  | .error e => .error (.unableToGetChecksum e)
  | .ok contents =>
    match checksumFromStream contents options with
    | .ok digest => .ok digest
    | .error e => .error (.unableToGetChecksum e)

/-- `FileStorage.checksum`: ask the adapter first; on the recoverable
`ChecksumIsNotAvailable` signal fall back to `calculateChecksum`; wrap every
other failure (the normalizer's included) into `UnableToGetChecksum`. -/
def FileStorage.checksum (adapterChecksum : String → ChecksumOptionsM → Except JsError String)
    (adapterRead : String → Except JsError (List Nat)) (path : String)
    (options : ChecksumOptionsM) : Except JsError String :=
  match (match normalizePath path with
         | .error e => .error (pathErrorToJs path e)
         | .ok np => adapterChecksum np options : Except JsError String) with
  | .ok digest => .ok digest
  | .error e =>
    if isChecksumIsNotAvailable e then FileStorage.calculateChecksum adapterRead path options
    else .error (.unableToGetChecksum e)

inductive VisibilityFallbackM where
  | ignore (stagedVisibilityResponse : Option String)
  | errorStrat (errorMessage : Option String)
deriving DecidableEq

/-- The recognized fields of `VisibilityOptions`; `none` is an absent key. -/
structure VisibilityOptionsM where
  useVisibility : Option Bool := none
  visibilityFallback : Option VisibilityFallbackM := none
deriving DecidableEq

/-- JS object-spread merge `{...a, ...b}` on the recognized fields: a key
present in `b` wins. -/
def VisibilityOptionsM.merge (a b : VisibilityOptionsM) : VisibilityOptionsM where
  useVisibility := b.useVisibility.orElse fun _ => a.useVisibility
  visibilityFallback := b.visibilityFallback.orElse fun _ => a.visibilityFallback

/-- `FileStorage.visibility`: merges the configured visibility options under
the per-call ones; with merged `useVisibility: false` it short-circuits on
the fallback (reading `.strategy` of an absent fallback is a TypeError);
otherwise it normalizes the path and wraps adapter failures. -/
def FileStorage.visibility (adapterVisibility : String → Except JsError String)
    (configVisibility : VisibilityOptionsM) (path : String)
    (callOptions : VisibilityOptionsM) : Except JsError String :=
  let options := configVisibility.merge callOptions
  if options.useVisibility = some false then
    match options.visibilityFallback with
    | none => .error (.typeError "undefined visibilityFallback")
    | some (.ignore staged) => .ok (staged.getD "unknown")
    | some (.errorStrat _) => .error (.unableToGetVisibility .noCause)
  else
    match normalizePath path with
    | .error e => .error (.unableToGetVisibility (pathErrorToJs path e))
    | .ok np =>
      match adapterVisibility np with
      | .ok v => .ok v
      | .error e => .error (.unableToGetVisibility e)

/-- `FileStorage.changeVisibility`: its merge is
`{...this.options.timeout, ...options}` — the configured visibility options
are NOT merged in, so only per-call options can trigger the fallback
short-circuit. -/
def FileStorage.changeVisibility (adapterChangeVisibility : String → String → Except JsError Unit)
    (path visibility : String) (callOptions : VisibilityOptionsM) : Except JsError Unit :=
  let options := callOptions
  if options.useVisibility = some false then
    match options.visibilityFallback with
    | none => .error (.typeError "undefined visibilityFallback")
    | some (.ignore _) => .ok ()
    | some (.errorStrat _) => .error (.unableToSetVisibility .noCause)
  else
    match normalizePath path with
    | .error e => .error (.unableToSetVisibility (pathErrorToJs path e))
    | .ok np =>
      match adapterChangeVisibility np visibility with
      | .ok _ => .ok ()
      | .error e => .error (.unableToSetVisibility e)

structure UploadRequestM where
  url : String
  method : String
deriving DecidableEq

/-- `FileStorage.prepareUpload`: an injected strategy wins; without one, a
missing adapter capability raises a plain generic `Error` (not a taxonomy
member); with the capability, failures (the normalizer's included) are
wrapped into `UnableToPrepareUploadRequest`. -/
def FileStorage.prepareUpload (strategy : Option (String → Except JsError UploadRequestM))
    (adapterPrepareUpload : Option (String → Except JsError UploadRequestM))
    (path : String) : Except JsError UploadRequestM :=
  match strategy with
  | some st =>
    match st path with
    | .ok r => .ok r
    | .error e => .error (.unableToPrepareUploadRequest e)
  | none =>
    match adapterPrepareUpload with
    | none => .error (.genericError "The used adapter does not support prepared uploads.")
    | some f =>
      match normalizePath path with
      | .error e => .error (.unableToPrepareUploadRequest (pathErrorToJs path e))
      | .ok np =>
        match f np with
        | .ok r => .ok r
        | .error e => .error (.unableToPrepareUploadRequest e)

def isUnableToPrepareUploadRequestError : Except JsError UploadRequestM → Bool
  | .error (.unableToPrepareUploadRequest _) => true
  | _ => false

/-- An adapter `AsyncGenerator<StatEntry>` collapsed to the entries it yields
followed by the error it then raises, if any. -/
structure ListingSequence where
  items : List StatEntryM
  afterError : Option JsError
deriving DecidableEq

/-- `DirectoryListing` with its constructor arguments. -/
structure DirectoryListingM where
  listing : ListingSequence
  path : String
  deep : Bool
deriving DecidableEq

/-- `DirectoryListing.toArray`: drains `this.listing` directly with
`for await` — NOT through the wrapped `[Symbol.asyncIterator]` — so a raised
backend error propagates raw.  The sort applied on success is the external
`Intl.Collator` natural comparison, supplied as `naturalSort`. -/
def DirectoryListingM.toArray (dl : DirectoryListingM)
    (naturalSort : List StatEntryM → List StatEntryM) (sorted : Bool) :
    Except JsError (List StatEntryM) :=
  match dl.listing.afterError with
  | some e => .error e
  | none => .ok (if sorted then naturalSort dl.listing.items else dl.listing.items)

/-- Consuming the `DirectoryListing` through its async-iteration protocol
(`[Symbol.asyncIterator]`): a failure of the underlying sequence is caught
and re-thrown as `UnableToListDirectory` with `{path, deep}` context and the
original error as cause. -/
def DirectoryListingM.iterateAll (dl : DirectoryListingM) : Except JsError (List StatEntryM) :=
  match dl.listing.afterError with
  | some e => .error (.unableToListDirectory dl.path dl.deep e)
  | none => .ok dl.listing.items

def isUnableToListDirectoryError : Except JsError (List StatEntryM) → Bool
  | .error (.unableToListDirectory _ _ _) => true
  | _ => false

/-- `FileStorage.list`: normalizes the path outside any try-block (a
normalizer error propagates raw), defaults `deep` to `false`, and hands the
RAW path together with the resolved deep flag to the `DirectoryListing`. -/
def FileStorage.list (adapterList : String → Bool → ListingSequence) (path : String)
    (deep : Option Bool) : Except JsError DirectoryListingM :=
  match normalizePath path with
  | .error e => .error (pathErrorToJs path e)
  | .ok np => .ok ⟨adapterList np (deep.getD false), path, deep.getD false⟩

theorem startsWithDDS_cons_ne_dot (c : Char) (l : List Char) (h : ¬ c = '.') :
    startsWithDotDotSlash (c :: l) = false := by
  match l with
  | [] => rfl
  | [_] => rfl
  | _ :: _ :: _ => simp [startsWithDotDotSlash, h]

theorem startsWithDDS_second_ne_dot (c1 c2 : Char) (l : List Char) (h : ¬ c2 = '.') :
    startsWithDotDotSlash (c1 :: c2 :: l) = false := by
  match l with
  | [] => rfl
  | _ :: _ => simp [startsWithDotDotSlash, h]

theorem startsWithDDS_slash_mem (l : List Char) (h : startsWithDotDotSlash l = true) :
    '/' ∈ l := by
  match l with
  | [] => simp [startsWithDotDotSlash] at h
  | [_] => simp [startsWithDotDotSlash] at h
  | [_, _] => simp [startsWithDotDotSlash] at h
  | c1 :: c2 :: c3 :: l' =>
    simp only [startsWithDotDotSlash, Bool.and_eq_true, decide_eq_true_eq] at h
    obtain ⟨-, -, rfl⟩ := h
    simp

theorem hasDDS_of_no_slash : ∀ (s : List Char), '/' ∉ s → hasDotDotSlash s = false
  | [], _ => rfl
  | c :: rest, hs => by
    have h1 : startsWithDotDotSlash (c :: rest) = false := by
      cases h : startsWithDotDotSlash (c :: rest) with
      | false => rfl
      | true => exact absurd (startsWithDDS_slash_mem _ h) hs
    have h2 : hasDotDotSlash rest = false :=
      hasDDS_of_no_slash rest (fun hm => hs (List.mem_cons_of_mem _ hm))
    show (startsWithDotDotSlash (c :: rest) || hasDotDotSlash rest) = false
    rw [h1, h2]
    rfl

theorem hasDDS_append_sep : ∀ (s t : List Char), '/' ∉ s →
    hasDotDotSlash (s ++ '/' :: t) = (endsWithDotDot s || hasDotDotSlash t)
  | [], t, _ => by
    rw [List.nil_append]
    show (startsWithDotDotSlash ('/' :: t) || hasDotDotSlash t) = _
    rw [startsWithDDS_cons_ne_dot '/' t (by decide)]
    simp [endsWithDotDot]
  | [c], t, _ => by
    show (startsWithDotDotSlash (c :: '/' :: t) || hasDotDotSlash ('/' :: t)) = _
    rw [startsWithDDS_second_ne_dot c '/' t (by decide)]
    show (false || (startsWithDotDotSlash ('/' :: t) || hasDotDotSlash t)) = _
    rw [startsWithDDS_cons_ne_dot '/' t (by decide)]
    simp [endsWithDotDot]
  | c1 :: c2 :: s', t, hs => by
    have ih := hasDDS_append_sep (c2 :: s') t (fun h => hs (List.mem_cons_of_mem _ h))
    show (startsWithDotDotSlash (c1 :: c2 :: (s' ++ '/' :: t)) ||
      hasDotDotSlash (c2 :: (s' ++ '/' :: t))) = _
    rw [show c2 :: (s' ++ '/' :: t) = (c2 :: s') ++ '/' :: t from rfl, ih]
    match s' with
    | [] =>
      show (startsWithDotDotSlash (c1 :: c2 :: '/' :: t) || _) = _
      simp [startsWithDotDotSlash, endsWithDotDot]
    | d :: s'' =>
      have hd : ¬ d = '/' := fun h => hs (by simp [h])
      simp only [List.cons_append, startsWithDotDotSlash]
      have : endsWithDotDot (c1 :: c2 :: d :: s'') = endsWithDotDot (c2 :: d :: s'') := rfl
      rw [this]
      simp [hd, Ne.symm hd]

theorem intercalate_singleton_seg (sep s : List Char) :
    List.intercalate sep [s] = s := by
  simp [List.intercalate]

theorem intercalate_cons_of_ne_nil (sep s : List Char) (rest : List (List Char))
    (h : rest ≠ []) :
    List.intercalate sep (s :: rest) = s ++ sep ++ List.intercalate sep rest := by
  cases rest with
  | nil => exact absurd rfl h
  | cons r rs =>
    simp [List.intercalate, List.intersperse_cons_cons, List.append_assoc]

theorem hasDDS_intercalate : ∀ (segs : List (List Char)), segs ≠ [] →
    (∀ s ∈ segs, '/' ∉ s) →
    hasDotDotSlash (List.intercalate ['/'] segs) = segs.dropLast.any endsWithDotDot
  | [], h, _ => absurd rfl h
  | [s], _, hs => by
    rw [intercalate_singleton_seg, hasDDS_of_no_slash s (hs s (by simp))]
    simp
  | s :: r :: rest, _, hs => by
    have ih := hasDDS_intercalate (r :: rest) (by simp)
      (fun x hx => hs x (List.mem_cons_of_mem _ hx))
    rw [intercalate_cons_of_ne_nil _ _ _ (by simp), List.append_assoc, List.singleton_append,
      hasDDS_append_sep s _ (hs s (by simp)), ih,
      show (s :: r :: rest).dropLast = s :: (r :: rest).dropLast from rfl, List.any_cons]

theorem splitOnP_mem {α : Type} (p : α → Bool) :
    ∀ (l : List α) (s : List α), s ∈ l.splitOnP p → ∀ x ∈ s, x ∈ l ∧ p x = false := by
  intro l
  induction l with
  | nil =>
    intro s hs x hx
    rw [List.splitOnP_nil] at hs
    simp only [List.mem_singleton] at hs
    subst hs
    simp at hx
  | cons a l ih =>
    intro s hs x hx
    rw [List.splitOnP_cons] at hs
    by_cases hpa : p a = true
    · rw [if_pos hpa] at hs
      rcases List.mem_cons.mp hs with h | h
      · subst h; simp at hx
      · obtain ⟨hxl, hpx⟩ := ih s h x hx
        exact ⟨List.mem_cons_of_mem _ hxl, hpx⟩
    · rw [if_neg hpa] at hs
      obtain ⟨h0, t0, hsplit⟩ : ∃ h0 t0, l.splitOnP p = h0 :: t0 := by
        cases hl : l.splitOnP p with
        | nil => exact absurd hl (List.splitOnP_ne_nil p l)
        | cons h0 t0 => exact ⟨h0, t0, rfl⟩
      rw [hsplit] at hs
      simp only [List.modifyHead] at hs
      rcases List.mem_cons.mp hs with h | h
      · subst h
        rcases List.mem_cons.mp hx with rfl | hx'
        · exact ⟨by simp, by simpa using hpa⟩
        · obtain ⟨hxl, hpx⟩ := ih h0 (by rw [hsplit]; simp) x hx'
          exact ⟨List.mem_cons_of_mem _ hxl, hpx⟩
      · obtain ⟨hxl, hpx⟩ := ih s (by rw [hsplit]; exact List.mem_cons_of_mem _ h) x hx
        exact ⟨List.mem_cons_of_mem _ hxl, hpx⟩

theorem splitOn_mem {α : Type} [DecidableEq α] (sep : α) (l s : List α)
    (hs : s ∈ l.splitOn sep) : (∀ x ∈ s, x ∈ l) ∧ sep ∉ s := by
  have h := splitOnP_mem (fun x => x == sep) l s hs
  constructor
  · intro x hx; exact (h x hx).1
  · intro hx
    have := (h sep hx).2
    simp at this

theorem splitOnP_append_sep {α : Type} [DecidableEq α] (sep : α) :
    ∀ (a b : List α), (a ++ sep :: b).splitOnP (· == sep) =
      a.splitOnP (· == sep) ++ b.splitOnP (· == sep) := by
  intro a
  induction a with
  | nil =>
    intro b
    rw [List.nil_append, List.splitOnP_cons, if_pos (by simp), List.splitOnP_nil]
    rfl
  | cons c a' ih =>
    intro b
    rw [List.cons_append, List.splitOnP_cons, List.splitOnP_cons]
    by_cases hc : (c == sep) = true
    · rw [if_pos hc, if_pos hc, ih, List.cons_append]
    · rw [if_neg hc, if_neg hc, ih]
      obtain ⟨h0, t0, hsplit⟩ : ∃ h0 t0, a'.splitOnP (· == sep) = h0 :: t0 := by
        cases hl : a'.splitOnP (· == sep) with
        | nil => exact absurd hl (List.splitOnP_ne_nil _ a')
        | cons h0 t0 => exact ⟨h0, t0, rfl⟩
      rw [hsplit]
      rfl

theorem splitOn_append_sep {α : Type} [DecidableEq α] (sep : α) (a b : List α) :
    (a ++ sep :: b).splitOn sep = a.splitOn sep ++ b.splitOn sep :=
  splitOnP_append_sep sep a b

theorem foldl_resolveStep_good (ab : Bool) :
    ∀ (segs acc : List (List Char)),
      (∀ s ∈ segs, s ≠ [] ∧ s ≠ ['.'] ∧ s ≠ ['.', '.']) →
      segs.foldl (resolveStep ab) acc = segs.reverse ++ acc
  | [], _, _ => by simp
  | s :: segs, acc, h => by
    have hs := h s (by simp)
    have hstep : resolveStep ab acc s = s :: acc := by
      unfold resolveStep
      rw [if_neg (by simp [hs.1, hs.2.1]), if_neg (by simp [hs.2.2])]
    rw [List.foldl_cons, hstep, foldl_resolveStep_good ab segs (s :: acc)
      (fun x hx => h x (List.mem_cons_of_mem _ hx))]
    simp

theorem resolveSegments_good (ab : Bool) (segs : List (List Char))
    (h : ∀ s ∈ segs, s ≠ [] ∧ s ≠ ['.'] ∧ s ≠ ['.', '.']) :
    resolveSegments ab segs = segs := by
  rw [resolveSegments, foldl_resolveStep_good ab segs [] h]
  simp

theorem foldl_filter_eq {α β : Type} (f : β → α → β) (q : α → Bool)
    (hf : ∀ acc x, q x = false → f acc x = acc) :
    ∀ (l : List α) (acc : β), (l.filter q).foldl f acc = l.foldl f acc
  | [], _ => rfl
  | x :: l, acc => by
    cases hx : q x with
    | false =>
      rw [List.filter_cons_of_neg (by simp [hx]), List.foldl_cons, hf acc x hx]
      exact foldl_filter_eq f q hf l acc
    | true =>
      rw [List.filter_cons_of_pos hx, List.foldl_cons, List.foldl_cons]
      exact foldl_filter_eq f q hf l (f acc x)

theorem resolveSegments_filter (ab : Bool) (segs : List (List Char)) :
    resolveSegments ab (segs.filter (fun s => s ≠ [])) = resolveSegments ab segs := by
  rw [resolveSegments, resolveSegments,
    foldl_filter_eq (resolveStep ab) (fun s => s ≠ []) (fun acc x hx => by
      have : x = [] := by simpa using hx
      subst this
      rfl) segs []]

theorem resolveStep_cases (ab : Bool) (acc : List (List Char)) (s : List Char) :
    ∀ x ∈ resolveStep ab acc s,
      x ∈ acc ∨ (x = s ∧ s ≠ [] ∧ s ≠ ['.'] ∧ s ≠ ['.', '.']) ∨ x = ['.', '.'] := by
  intro x hx
  by_cases h1 : s = [] ∨ s = ['.']
  · rw [resolveStep, if_pos (by rcases h1 with h | h <;> simp [h])] at hx
    exact Or.inl hx
  · have h1' : ¬(decide (s = []) || decide (s = ['.'])) = true := by
      simp only [not_or] at h1
      simp [h1.1, h1.2]
    by_cases h2 : s = ['.', '.']
    · rw [resolveStep, if_neg h1', if_pos (by simp [h2])] at hx
      cases acc with
      | nil =>
        rw [resolvePop] at hx
        cases ab with
        | true =>
          rw [if_pos rfl] at hx
          exact Or.inr (Or.inr (List.mem_singleton.mp hx))
        | false => simp at hx
      | cons top rest =>
        rw [resolvePop] at hx
        by_cases htop : top = ['.', '.']
        · rw [if_pos (by simp [htop])] at hx
          cases ab with
          | true =>
            rw [if_pos rfl] at hx
            rcases List.mem_cons.mp hx with h | h
            · exact Or.inr (Or.inr h)
            · exact Or.inl h
          | false =>
            rw [if_neg (by simp)] at hx
            exact Or.inl hx
        · rw [if_neg (by simp [htop])] at hx
          exact Or.inl (List.mem_cons_of_mem _ hx)
    · rw [resolveStep, if_neg h1', if_neg (by simp [h2])] at hx
      rcases List.mem_cons.mp hx with h | h
      · simp only [not_or] at h1
        exact Or.inr (Or.inl ⟨h, h1.1, h1.2, h2⟩)
      · exact Or.inl h

theorem resolveStep_invariant (ab : Bool) (acc : List (List Char)) (s : List Char)
    (hs : '/' ∉ s) (hacc : ∀ x ∈ acc, '/' ∉ x ∧ x ≠ [] ∧ x ≠ ['.']) :
    ∀ x ∈ resolveStep ab acc s, '/' ∉ x ∧ x ≠ [] ∧ x ≠ ['.'] := by
  intro x hx
  rcases resolveStep_cases ab acc s x hx with h | ⟨h0, h2, h3, -⟩ | h0
  · exact hacc x h
  · subst h0
    refine ⟨hs, h2, h3⟩
  · subst h0
    exact ⟨by decide, by decide, by decide⟩

theorem foldl_resolve_invariant (ab : Bool) :
    ∀ (segs acc : List (List Char)),
      (∀ s ∈ segs, '/' ∉ s) → (∀ x ∈ acc, '/' ∉ x ∧ x ≠ [] ∧ x ≠ ['.']) →
      ∀ x ∈ segs.foldl (resolveStep ab) acc, '/' ∉ x ∧ x ≠ [] ∧ x ≠ ['.']
  | [], acc, _, hacc => hacc
  | s :: segs, acc, hsegs, hacc => by
    rw [List.foldl_cons]
    exact foldl_resolve_invariant ab segs (resolveStep ab acc s)
      (fun y hy => hsegs y (List.mem_cons_of_mem _ hy))
      (resolveStep_invariant ab acc s (hsegs s (by simp)) hacc)

theorem resolveSegments_invariant (ab : Bool) (segs : List (List Char))
    (h : ∀ s ∈ segs, '/' ∉ s) :
    ∀ x ∈ resolveSegments ab segs, '/' ∉ x ∧ x ≠ [] ∧ x ≠ ['.'] := by
  intro x hx
  rw [resolveSegments, List.mem_reverse] at hx
  exact foldl_resolve_invariant ab segs [] h (by simp) x hx

theorem getLast?_ne_of_not_mem : ∀ (s : List Char) (c : Char), c ∉ s →
    ¬ s.getLast? = some c
  | [], _, _ => by simp
  | [x], c, h => by
    simp only [List.getLast?_singleton, Option.some.injEq]
    intro hcon
    exact h (by simp [hcon])
  | x :: y :: t, c, h => by
    rw [List.getLast?_cons_cons]
    exact getLast?_ne_of_not_mem (y :: t) c (fun hm => h (List.mem_cons_of_mem _ hm))

theorem head?_ne_of_not_mem (s : List Char) (c : Char) (h : c ∉ s) :
    ¬ s.head? = some c := by
  cases s with
  | nil => simp
  | cons x t =>
    simp only [List.head?_cons, Option.some.injEq]
    intro hcon
    exact h (by simp [hcon])

theorem intercalate_ne_nil (sep : List Char) :
    ∀ (segs : List (List Char)), segs ≠ [] → (∀ s ∈ segs, s ≠ []) →
      List.intercalate sep segs ≠ []
  | [], h, _ => absurd rfl h
  | [s], _, h1 => by
    rw [intercalate_singleton_seg]
    exact h1 s (by simp)
  | s :: r :: rest, _, h1 => by
    rw [intercalate_cons_of_ne_nil _ _ _ (by simp)]
    intro hcon
    rcases List.append_eq_nil.mp hcon with ⟨hcon1, -⟩
    rcases List.append_eq_nil.mp hcon1 with ⟨hs, -⟩
    exact h1 s (by simp) hs

theorem intercalate_head_ne (segs : List (List Char))
    (h1 : ∀ s ∈ segs, s ≠ []) (h2 : ∀ s ∈ segs, '/' ∉ s) :
    ¬ (List.intercalate ['/'] segs).head? = some '/' := by
  cases segs with
  | nil => simp [List.intercalate]
  | cons s rest =>
    have hs : s ≠ [] := h1 s (by simp)
    have hsf : '/' ∉ s := h2 s (by simp)
    cases rest with
    | nil =>
      rw [intercalate_singleton_seg]
      exact head?_ne_of_not_mem s '/' hsf
    | cons r rest' =>
      rw [intercalate_cons_of_ne_nil _ _ _ (by simp), List.append_assoc]
      cases s with
      | nil => exact absurd rfl hs
      | cons c s' =>
        rw [List.cons_append, List.head?_cons]
        intro hcon
        have : c = '/' := by simpa using hcon
        exact hsf (by simp [this])

theorem intercalate_getLast_ne :
    ∀ (segs : List (List Char)), (∀ s ∈ segs, s ≠ []) → (∀ s ∈ segs, '/' ∉ s) →
      ¬ (List.intercalate ['/'] segs).getLast? = some '/'
  | [], _, _ => by simp [List.intercalate]
  | [s], h1, h2 => by
    rw [intercalate_singleton_seg]
    exact getLast?_ne_of_not_mem s '/' (h2 s (by simp))
  | s :: r :: rest, h1, h2 => by
    have hne : List.intercalate ['/'] (r :: rest) ≠ [] :=
      intercalate_ne_nil ['/'] (r :: rest) (by simp)
        (fun x hx => h1 x (List.mem_cons_of_mem _ hx))
    rw [intercalate_cons_of_ne_nil _ _ _ (by simp), List.append_assoc,
      List.getLast?_append_of_ne_nil _ (by simp),
      List.getLast?_append_of_ne_nil _ hne]
    exact intercalate_getLast_ne (r :: rest) (fun x hx => h1 x (List.mem_cons_of_mem _ hx))
      (fun x hx => h2 x (List.mem_cons_of_mem _ hx))

theorem intercalate_eq_dotdot (segs : List (List Char))
    (h2 : ∀ s ∈ segs, '/' ∉ s)
    (hv : List.intercalate ['/'] segs = ['.', '.']) : segs = [['.', '.']] := by
  cases segs with
  | nil => simp [List.intercalate] at hv
  | cons s rest =>
    cases rest with
    | nil =>
      rw [intercalate_singleton_seg] at hv
      rw [hv]
    | cons r rest' =>
      rw [intercalate_cons_of_ne_nil _ _ _ (by simp)] at hv
      have : '/' ∈ s ++ ['/'] ++ List.intercalate ['/'] (r :: rest') := by simp
      rw [hv] at this
      simp at this

theorem intercalate_ne_dot (segs : List (List Char))
    (h2 : ∀ s ∈ segs, '/' ∉ s) (h3 : ∀ s ∈ segs, s ≠ ['.']) :
    ¬ List.intercalate ['/'] segs = ['.'] := by
  intro hv
  cases segs with
  | nil => simp [List.intercalate] at hv
  | cons s rest =>
    cases rest with
    | nil =>
      rw [intercalate_singleton_seg] at hv
      exact h3 s (by simp) hv
    | cons r rest' =>
      rw [intercalate_cons_of_ne_nil _ _ _ (by simp)] at hv
      have : '/' ∈ s ++ ['/'] ++ List.intercalate ['/'] (r :: rest') := by simp
      rw [hv] at this
      simp at this

theorem resolveStep_shape (ab : Bool) (acc : List (List Char)) (s : List Char)
    (h : StackShape acc) : StackShape (resolveStep ab acc s) := by
  by_cases h1 : s = [] ∨ s = ['.']
  · rw [resolveStep, if_pos (by rcases h1 with h | h <;> simp [h])]
    exact h
  · have h1' : ¬(decide (s = []) || decide (s = ['.'])) = true := by
      simp only [not_or] at h1
      simp [h1.1, h1.2]
    by_cases h2 : s = ['.', '.']
    · rw [resolveStep, if_neg h1', if_pos (by simp [h2])]
      obtain ⟨front, dds, rfl, hf, hd⟩ := h
      cases front with
      | nil =>
        cases dds with
        | nil =>
          rw [List.nil_append, resolvePop]
          cases ab with
          | true =>
            rw [if_pos rfl]
            exact ⟨[], [['.', '.']], rfl, by simp, by simp⟩
          | false =>
            rw [if_neg (by simp)]
            exact ⟨[], [], rfl, by simp, by simp⟩
        | cons d rest =>
          have hdval : d = ['.', '.'] := hd d (by simp)
          rw [List.nil_append, resolvePop, if_pos (by simp [hdval])]
          cases ab with
          | true =>
            rw [if_pos rfl]
            refine ⟨[], ['.', '.'] :: d :: rest, rfl, by simp, ?_⟩
            intro y hy
            rcases List.mem_cons.mp hy with h | h
            · exact h
            · exact hd y h
          | false =>
            rw [if_neg (by simp)]
            exact ⟨[], d :: rest, rfl, by simp, hd⟩
      | cons f front' =>
        have hfne : ¬ f = ['.', '.'] := fun hcon => hf (by simp [hcon])
        rw [List.cons_append, resolvePop, if_neg (by simp [hfne])]
        exact ⟨front', dds, rfl, fun hcon => hf (List.mem_cons_of_mem _ hcon), hd⟩
    · rw [resolveStep, if_neg h1', if_neg (by simp [h2])]
      obtain ⟨front, dds, rfl, hf, hd⟩ := h
      refine ⟨s :: front, dds, rfl, ?_, hd⟩
      intro hcon
      rcases List.mem_cons.mp hcon with h | h
      · exact h2 h.symm
      · exact hf h

theorem foldl_resolve_shape (ab : Bool) :
    ∀ (segs acc : List (List Char)), StackShape acc →
      StackShape (segs.foldl (resolveStep ab) acc)
  | [], _, h => h
  | s :: segs, acc, h => by
    rw [List.foldl_cons]
    exact foldl_resolve_shape ab segs _ (resolveStep_shape ab acc s h)

theorem normalizedSegments_ddshape (p : List Char) :
    ∃ dds front, normalizedSegments p = dds ++ front ∧ (∀ y ∈ dds, y = ['.', '.']) ∧
      ['.', '.'] ∉ front := by
  obtain ⟨front, dds, heq, hf, hd⟩ :=
    foldl_resolve_shape true ((p.splitOn '/').filter (fun s => s ≠ [])) []
      ⟨[], [], rfl, by simp, by simp⟩
  refine ⟨dds.reverse, front.reverse, ?_, ?_, ?_⟩
  · rw [normalizedSegments, resolveSegments, heq, List.reverse_append]
  · intro y hy
    exact hd y (List.mem_reverse.mp hy)
  · intro hcon
    exact hf (List.mem_reverse.mp hcon)

theorem no_dd_segment_of_ok (p : List Char)
    (h1 : (normalizedSegments p).dropLast.any endsWithDotDot = false)
    (h2 : normalizedSegments p ≠ [['.', '.']]) :
    ['.', '.'] ∉ normalizedSegments p := by
  obtain ⟨dds, front, heq, hdds, hfront⟩ := normalizedSegments_ddshape p
  cases dds with
  | nil =>
    rw [heq, List.nil_append]
    exact hfront
  | cons d dds' =>
    have hd : d = ['.', '.'] := hdds d (by simp)
    subst hd
    exfalso
    cases hrest : dds' ++ front with
    | nil =>
      apply h2
      rw [heq, List.cons_append, hrest]
    | cons y ys =>
      rw [heq, List.cons_append, hrest] at h1
      rw [show (['.', '.'] :: y :: ys).dropLast = ['.', '.'] :: (y :: ys).dropLast from rfl,
        List.any_cons] at h1
      simp [endsWithDotDot] at h1

theorem posixNormalize_relative (q : List Char) (hq : q ≠ [])
    (hhead : ¬ q.head? = some '/') (hlast : ¬ q.getLast? = some '/') :
    posixNormalize q =
      if resolveSegments true (q.splitOn '/') = [] then ['.']
      else List.intercalate ['/'] (resolveSegments true (q.splitOn '/')) := by
  simp [posixNormalize, hq, hhead, hlast]

theorem posixJoin_splitOn (p : List Char) :
    posixJoin (p.splitOn '/') =
      if normalizedSegments p = [] then ['.']
      else List.intercalate ['/'] (normalizedSegments p) := by
  by_cases hparts : (p.splitOn '/').filter (fun s => s ≠ []) = []
  · have hseg : normalizedSegments p = [] := by
      rw [normalizedSegments, hparts]
      rfl
    rw [if_pos hseg]
    simp only [posixJoin, hparts, if_pos]
  · have hub : ∀ s ∈ (p.splitOn '/').filter (fun s => s ≠ []), s ≠ [] := by
      intro s hs
      simpa using List.of_mem_filter hs
    have hfree : ∀ s ∈ (p.splitOn '/').filter (fun s => s ≠ []), '/' ∉ s := by
      intro s hs
      exact (splitOn_mem '/' p s (List.mem_of_mem_filter hs)).2
    have hjoined_ne : List.intercalate ['/'] ((p.splitOn '/').filter (fun s => s ≠ [])) ≠ [] :=
      intercalate_ne_nil ['/'] _ hparts hub
    have hsplit :
        (List.intercalate ['/'] ((p.splitOn '/').filter (fun s => s ≠ []))).splitOn '/' =
          (p.splitOn '/').filter (fun s => s ≠ []) :=
      List.splitOn_intercalate _ '/' hfree hparts
    simp only [posixJoin, if_neg hparts]
    rw [posixNormalize_relative _ hjoined_ne
      (intercalate_head_ne _ hub hfree) (intercalate_getLast_ne _ hub hfree), hsplit]
    rfl

/-- Central characterization of `normalizePath` on inputs with no `\p{C}`
character: the call fails with the traversal error exactly when some resolved
segment other than the last one ends in `..`, or the whole resolution is the
single segment `..`; otherwise it returns the resolved segments joined
with `/`. -/
theorem normalizePathChars_spec (p : List Char) (hf : hasFunkyWhitespace p = false) :
    normalizePathChars p =
      if ((normalizedSegments p).dropLast.any endsWithDotDot = true ∨
          normalizedSegments p = [['.', '.']])
      then .error .pathTraversalDetected
      else .ok (List.intercalate ['/'] (normalizedSegments p)) := by
  have hfree : ∀ s ∈ (p.splitOn '/').filter (fun s => s ≠ []), '/' ∉ s := by
    intro s hs
    exact (splitOn_mem '/' p s (List.mem_of_mem_filter hs)).2
  have hinv : ∀ x ∈ normalizedSegments p, '/' ∉ x ∧ x ≠ [] ∧ x ≠ ['.'] := by
    intro x hx
    exact resolveSegments_invariant true _ hfree x hx
  simp only [normalizePathChars, hf, Bool.false_eq_true, if_false]
  rw [posixJoin_splitOn]
  by_cases hr : normalizedSegments p = []
  · rw [if_pos hr, hr]
    decide
  · rw [if_neg hr]
    rw [hasDDS_intercalate (normalizedSegments p) hr (fun s hs => (hinv s hs).1)]
    have hdot : ¬ List.intercalate ['/'] (normalizedSegments p) = ['.'] :=
      intercalate_ne_dot _ (fun s hs => (hinv s hs).1) (fun s hs => (hinv s hs).2.2)
    by_cases hc : (normalizedSegments p).dropLast.any endsWithDotDot = true
    · rw [if_pos (by simp [hc]), if_pos (Or.inl hc)]
    · by_cases hdd : normalizedSegments p = [['.', '.']]
      · have hval : List.intercalate ['/'] (normalizedSegments p) = ['.', '.'] := by
          rw [hdd]
          rfl
        rw [if_pos (by simp [hval]), if_pos (Or.inr hdd)]
      · have hne2 : ¬ List.intercalate ['/'] (normalizedSegments p) = ['.', '.'] := fun hcon =>
          hdd (intercalate_eq_dotdot _ (fun s hs => (hinv s hs).1) hcon)
        rw [if_neg (by simp [hc, hne2]), if_neg hdot, if_neg (by
          intro hcon
          rcases hcon with h | h
          · exact hc h
          · exact hdd h)]

theorem foldl_resolve_mem (ab : Bool) :
    ∀ (segs acc : List (List Char)) (x : List Char),
      x ∈ segs.foldl (resolveStep ab) acc → x ∈ acc ∨ x ∈ segs ∨ x = ['.', '.']
  | [], _, _, h => Or.inl h
  | s :: segs, acc, x, h => by
    rcases foldl_resolve_mem ab segs (resolveStep ab acc s) x h with h1 | h1 | h1
    · rcases resolveStep_cases ab acc s x h1 with h2 | ⟨h2, -⟩ | h2
      · exact Or.inl h2
      · exact Or.inr (Or.inl (by simp [h2]))
      · exact Or.inr (Or.inr h2)
    · exact Or.inr (Or.inl (List.mem_cons_of_mem _ h1))
    · exact Or.inr (Or.inr h1)

theorem resolveSegments_mem (ab : Bool) (segs : List (List Char)) (x : List Char)
    (h : x ∈ resolveSegments ab segs) : x ∈ segs ∨ x = ['.', '.'] := by
  rw [resolveSegments, List.mem_reverse] at h
  rcases foldl_resolve_mem ab segs [] x h with h1 | h1
  · simp at h1
  · exact h1

theorem intercalate_mem_char (sep : List Char) :
    ∀ (segs : List (List Char)) (c : Char), c ∈ List.intercalate sep segs →
      (∃ s ∈ segs, c ∈ s) ∨ c ∈ sep
  | [], c, h => by simp [List.intercalate] at h
  | [s], c, h => by
    rw [intercalate_singleton_seg] at h
    exact Or.inl ⟨s, by simp, h⟩
  | s :: r :: rest, c, h => by
    rw [intercalate_cons_of_ne_nil _ _ _ (by simp)] at h
    rcases List.mem_append.mp h with h1 | h1
    · rcases List.mem_append.mp h1 with h2 | h2
      · exact Or.inl ⟨s, by simp, h2⟩
      · exact Or.inr h2
    · rcases intercalate_mem_char sep (r :: rest) c h1 with ⟨s', hs', hc'⟩ | h2
      · exact Or.inl ⟨s', List.mem_cons_of_mem _ hs', hc'⟩
      · exact Or.inr h2

theorem filter_ne_nil_eq_self : ∀ (l : List (List Char)), (∀ s ∈ l, s ≠ []) →
    l.filter (fun s => s ≠ []) = l
  | [], _ => rfl
  | s :: l, h => by
    rw [List.filter_cons_of_pos (by simp [h s (by simp)]),
      filter_ne_nil_eq_self l (fun x hx => h x (List.mem_cons_of_mem _ hx))]

/-- Shared idempotence core: a successful output of the normalizer normalizes
to itself. -/
theorem normalizePathChars_idempotent (p q : List Char)
    (h : normalizePathChars p = .ok q) : normalizePathChars q = .ok q := by
  have hf : hasFunkyWhitespace p = false := by
    by_contra hcon
    rw [normalizePathChars, if_pos (by simpa using hcon)] at h
    cases h
  have hfree : ∀ s ∈ (p.splitOn '/').filter (fun s => s ≠ []), '/' ∉ s := by
    intro s hs
    exact (splitOn_mem '/' p s (List.mem_of_mem_filter hs)).2
  have hinv : ∀ x ∈ normalizedSegments p, '/' ∉ x ∧ x ≠ [] ∧ x ≠ ['.'] :=
    fun x hx => resolveSegments_invariant true _ hfree x hx
  rw [normalizePathChars_spec p hf] at h
  by_cases hcond : ((normalizedSegments p).dropLast.any endsWithDotDot = true ∨
      normalizedSegments p = [['.', '.']])
  · rw [if_pos hcond] at h
    cases h
  · rw [if_neg hcond] at h
    have hq : q = List.intercalate ['/'] (normalizedSegments p) := by
      cases h
      rfl
    have hc1 : (normalizedSegments p).dropLast.any endsWithDotDot = false := by
      by_contra hcon
      exact hcond (Or.inl (by simpa using hcon))
    have hnoDD : ['.', '.'] ∉ normalizedSegments p :=
      no_dd_segment_of_ok p hc1 (fun hcon => hcond (Or.inr hcon))
    by_cases hr : normalizedSegments p = []
    · rw [hq, hr]
      decide
    · have hgood : ∀ s ∈ normalizedSegments p, s ≠ [] ∧ s ≠ ['.'] ∧ s ≠ ['.', '.'] := by
        intro s hs
        refine ⟨(hinv s hs).2.1, (hinv s hs).2.2, ?_⟩
        intro hcon
        rw [hcon] at hs
        exact hnoDD hs
      have hsplitq : q.splitOn '/' = normalizedSegments p := by
        rw [hq]
        exact List.splitOn_intercalate _ '/' (fun s hs => (hinv s hs).1) hr
      have hfq : hasFunkyWhitespace q = false := by
        rw [hasFunkyWhitespace]
        rw [List.any_eq_false]
        intro c hc
        rw [hq] at hc
        rcases intercalate_mem_char ['/'] _ c hc with ⟨s, hsr, hcs⟩ | hsep
        · rcases resolveSegments_mem true _ s hsr with hsp | hsp
          · have hcp : c ∈ p := (splitOn_mem '/' p s (List.mem_of_mem_filter hsp)).1 c hcs
            have := List.any_eq_false.mp (by rw [← hasFunkyWhitespace]; exact hf) c hcp
            simpa using this
          · rw [hsp] at hcs
            rcases List.mem_cons.mp hcs with h1 | h1
            · subst h1; decide
            · rcases List.mem_singleton.mp h1 with rfl; decide
        · rcases List.mem_singleton.mp hsep with rfl
          decide
      have hrq : normalizedSegments q = normalizedSegments p := by
        rw [normalizedSegments, hsplitq,
          filter_ne_nil_eq_self _ (fun s hs => (hinv s hs).2.1),
          resolveSegments_good true _ hgood]
      rw [normalizePathChars_spec q hfq, hrq, if_neg hcond, hq]

/-- C1 (amended): the three traversal rejections and the internal-`..`
resolution hold as stated, and in general, on inputs free of `\p{C}`
characters, `normalizePath` fails with the traversal error exactly when the
resolved segment sequence either is the single segment `..` (a net upward
escape) or has a segment other than the last one ending in the two characters
`..` — which covers every net upward escape, but also paths such as `a../b`
whose resolution never pops past the root. -/
theorem claim1_traversal_characterization :
    normalizePath "../x" = .error .pathTraversalDetected ∧
    normalizePath "a/../../b" = .error .pathTraversalDetected ∧
    normalizePath ".." = .error .pathTraversalDetected ∧
    normalizePath "a/../b" = .ok "b" ∧
    ∀ p : String, hasFunkyWhitespace p.data = false →
      (normalizePath p = .error .pathTraversalDetected ↔
        ((normalizedSegments p.data).dropLast.any endsWithDotDot = true ∨
          normalizedSegments p.data = [['.', '.']])) := by
  refine ⟨by decide, by decide, by decide, by decide, ?_⟩
  intro p hf
  rw [normalizePath, normalizePathChars_spec p.data hf]
  constructor
  · intro h
    by_contra hcon
    rw [if_neg hcon] at h
    have h2 : (Except.ok (String.mk (List.intercalate ['/'] (normalizedSegments p.data))) :
        Except PathError String) = .error .pathTraversalDetected := h
    cases h2
  · intro h
    rw [if_pos h]
    rfl

/-- C1 counterexample: `"a../b"` contains no `..` segment at all — its
resolution pops nothing, in particular never past the root — yet
`normalizePath` throws the traversal error, refuting "only a resolution that
would pop past the root fails". -/
theorem claim1_counterexample :
    normalizePath "a../b" = .error .pathTraversalDetected ∧
    ['.', '.'] ∉ "a../b".data.splitOn '/' ∧
    normalizedSegments "a../b".data = [['a', '.', '.'], ['b']] := by
  refine ⟨by decide, by decide, by decide⟩

theorem claim1_witness :
    hasFunkyWhitespace "deep/../..".data = false ∧
    (normalizePath "deep/../.." = .error .pathTraversalDetected ↔
      ((normalizedSegments "deep/../..".data).dropLast.any endsWithDotDot = true ∨
        normalizedSegments "deep/../..".data = [['.', '.']])) :=
  ⟨by decide, claim1_traversal_characterization.2.2.2.2 "deep/../.." (by decide)⟩

/-- C2 (amended): every canonical path — no `\p{C}` characters, no empty, `.`
or `..` segments (hence no leading, trailing or doubled `/`), and no segment
other than the last one ending in the two characters `..` — is returned
verbatim by `normalizePath`; in particular a literal `..` inside the final
segment (`10-75..stl`) is preserved. -/
theorem claim2_roundtrip_canonical (p : String) (h : isCanonicalAmended p.data = true) :
    normalizePath p = .ok p := by
  have hparts : ∀ s ∈ p.data.splitOn '/', s ≠ [] ∧ s ≠ ['.'] ∧ s ≠ ['.', '.'] := by
    simp only [isCanonicalAmended, Bool.and_eq_true, List.all_eq_true] at h
    intro s hs
    have := h.1.2 s hs
    simp only [goodSegment, Bool.and_eq_true, decide_eq_true_eq] at this
    tauto
  have hf : hasFunkyWhitespace p.data = false := by
    simp only [isCanonicalAmended, Bool.and_eq_true, Bool.not_eq_true'] at h
    exact h.1.1
  have hdl : (p.data.splitOn '/').dropLast.any endsWithDotDot = false := by
    simp only [isCanonicalAmended, Bool.and_eq_true, Bool.not_eq_true'] at h
    exact h.2
  have core : normalizePathChars p.data = .ok p.data := by
    have hr : normalizedSegments p.data = p.data.splitOn '/' := by
      rw [normalizedSegments, filter_ne_nil_eq_self _ (fun s hs => (hparts s hs).1),
        resolveSegments_good true _ hparts]
    rw [normalizePathChars_spec p.data hf, hr, if_neg ?cond, List.intercalate_splitOn]
    case cond =>
      intro hcon
      rcases hcon with h1 | h1
      · rw [hdl] at h1
        cases h1
      · have : ['.', '.'] ∈ p.data.splitOn '/' := by
          rw [h1]
          simp
        exact (hparts _ this).2.2 rfl
  rw [normalizePath, core]
  rfl

/-- C2 counterexample: `"a../b"` and `"a//b"` both satisfy the claim's
canonicality — no `.` or `..` segment, no leading or trailing `/`, no `\p{C}`
character — yet neither is returned verbatim: the first throws the traversal
error, the second loses its doubled slash. -/
theorem claim2_counterexample :
    isCanonicalClaim "a../b".data = true ∧ normalizePath "a../b" ≠ .ok "a../b" ∧
    isCanonicalClaim "a//b".data = true ∧ normalizePath "a//b" = .ok "a/b" := by
  refine ⟨by decide, by decide, by decide, by decide⟩

theorem claim2_witness :
    isCanonicalAmended "00004869/files/other/10-75..stl".data = true ∧
    normalizePath "00004869/files/other/10-75..stl" =
      .ok "00004869/files/other/10-75..stl" :=
  ⟨by decide, claim2_roundtrip_canonical _ (by decide)⟩

/-- C10 (confirmed): `normalizePath` is idempotent on its accepted domain. -/
theorem claim10_idempotent (p q : String) (h : normalizePath p = .ok q) :
    normalizePath q = .ok q := by
  rw [normalizePath] at h
  cases hc : normalizePathChars p.data with
  | error e =>
    rw [hc] at h
    have h2 : (Except.error e : Except PathError String) = .ok q := h
    cases h2
  | ok l =>
    rw [hc] at h
    have h2 : (Except.ok (String.mk l) : Except PathError String) = .ok q := h
    have hq : String.mk l = q := by
      injection h2
    subst hq
    have hidem := normalizePathChars_idempotent p.data l hc
    rw [normalizePath, show (String.mk l).data = l from rfl, hidem]
    rfl

theorem claim10_witness :
    normalizePath "a/.././x" = .ok "x" ∧ normalizePath "x" = .ok "x" :=
  ⟨by decide, claim10_idempotent "a/.././x" "x" (by decide)⟩

/-- Evaluation of Node's posix `normalize` on relative inputs (head not `/`),
with the trailing-separator restoration left in. -/
theorem posixNormalize_rel (q : List Char) (hq : q ≠ []) (hhead : ¬ q.head? = some '/') :
    posixNormalize q =
      if resolveSegments true (q.splitOn '/') = [] then
        (if q.getLast? = some '/' then ['.', '/'] else ['.'])
      else
        (if q.getLast? = some '/' then
          List.intercalate ['/'] (resolveSegments true (q.splitOn '/')) ++ ['/']
        else List.intercalate ['/'] (resolveSegments true (q.splitOn '/'))) := by
  by_cases htrail : q.getLast? = some '/'
  · simp [posixNormalize, hq, hhead, htrail]
  · simp [posixNormalize, hq, hhead, htrail]

theorem goodPath_segments (p : List Char) (h : goodPath p = true) :
    ∀ s ∈ p.splitOn '/', s ≠ [] ∧ s ≠ ['.'] ∧ s ≠ ['.', '.'] := by
  rw [goodPath, List.all_eq_true] at h
  intro s hs
  have := h s hs
  simp only [goodSegment, Bool.and_eq_true, decide_eq_true_eq] at this
  tauto

theorem goodPath_ne_nil (p : List Char) (h : goodPath p = true) : p ≠ [] := by
  intro hcon
  subst hcon
  simp [goodPath, goodSegment, List.splitOn_nil] at h

theorem goodPath_rep (p : List Char) :
    List.intercalate ['/'] (p.splitOn '/') = p := by
  rw [List.intercalate_splitOn]

theorem goodPath_head (p : List Char) (h : goodPath p = true) :
    ¬ p.head? = some '/' := by
  rw [← goodPath_rep p]
  exact intercalate_head_ne _ (fun s hs => (goodPath_segments p h s hs).1)
    (fun s hs => (splitOn_mem '/' p s hs).2)

theorem goodPath_last (p : List Char) (h : goodPath p = true) :
    ¬ p.getLast? = some '/' := by
  rw [← goodPath_rep p]
  exact intercalate_getLast_ne _ (fun s hs => (goodPath_segments p h s hs).1)
    (fun s hs => (splitOn_mem '/' p s hs).2)

theorem goodPath_head_append (p : List Char) (h : goodPath p = true) (Y : List Char) :
    ¬ (p ++ Y).head? = some '/' := by
  cases hp : p with
  | nil => exact absurd hp (goodPath_ne_nil p h)
  | cons c p' =>
    intro hcon
    apply goodPath_head p h
    rw [hp]
    simpa using hcon

theorem resolveSegments_mixed (ab : Bool) (segs : List (List Char))
    (h : ∀ s ∈ segs, s = [] ∨ (s ≠ ['.'] ∧ s ≠ ['.', '.'])) :
    resolveSegments ab segs = segs.filter (fun s => s ≠ []) := by
  rw [← resolveSegments_filter]
  apply resolveSegments_good
  intro s hs
  have h1 : s ≠ [] := by simpa using List.of_mem_filter hs
  rcases h s (List.mem_of_mem_filter hs) with h2 | h2
  · exact absurd h2 h1
  · exact ⟨h1, h2.1, h2.2⟩

theorem intercalate_append_of_ne_nil (sep : List Char) :
    ∀ (A B : List (List Char)), A ≠ [] → B ≠ [] →
      List.intercalate sep (A ++ B) =
        List.intercalate sep A ++ sep ++ List.intercalate sep B
  | [], _, hA, _ => absurd rfl hA
  | [a], B, _, hB => by
    rw [List.singleton_append, intercalate_cons_of_ne_nil _ _ _ hB, intercalate_singleton_seg]
  | a :: a' :: A', B, _, hB => by
    rw [List.cons_append, intercalate_cons_of_ne_nil _ _ _ (by simp),
      intercalate_cons_of_ne_nil _ _ _ (by simp),
      intercalate_append_of_ne_nil sep (a' :: A') B (by simp) hB]
    simp [List.append_assoc]

theorem dropTrailingSlashes_append_slash (p : List Char) (h : ¬ p.getLast? = some '/') :
    dropTrailingSlashes (p ++ ['/']) = p := by
  rw [dropTrailingSlashes, List.reverse_append, List.reverse_singleton, List.singleton_append,
    List.dropWhile_cons_of_pos (by simp)]
  cases hrev : p.reverse with
  | nil =>
    have : p = [] := by simpa using congrArg List.reverse hrev
    simp [this]
  | cons c t =>
    have hc : p.getLast? = some c := by
      rw [← List.head?_reverse, hrev]
      rfl
    have hcne : ¬ c = '/' := fun hcon => h (by rw [hc, hcon])
    rw [List.dropWhile_cons_of_neg (by simp [hcne]), ← hrev, List.reverse_reverse]

theorem splitOn_cons_sep {α : Type} [DecidableEq α] (sep : α) (b : List α) :
    (sep :: b).splitOn sep = [] :: b.splitOn sep := by
  have := splitOn_append_sep sep [] b
  simpa using this

theorem splitOn_ne_nil {α : Type} [DecidableEq α] (sep : α) (l : List α) :
    l.splitOn sep ≠ [] := List.splitOnP_ne_nil _ l

theorem filter_all_empty : ∀ (E : List (List Char)), (∀ s ∈ E, s = []) →
    E.filter (fun s => s ≠ []) = []
  | [], _ => rfl
  | e :: E, h => by
    rw [List.filter_cons_of_neg (by simp [h e (by simp)]),
      filter_all_empty E (fun s hs => h s (List.mem_cons_of_mem _ hs))]

theorem good_mixed_append (X : List Char) (hX : goodPath X = true) (E : List (List Char))
    (hE : ∀ s ∈ E, s = []) :
    ∀ s ∈ X.splitOn '/' ++ E, s = [] ∨ (s ≠ ['.'] ∧ s ≠ ['.', '.']) := by
  intro s hs
  rcases List.mem_append.mp hs with h1 | h1
  · exact Or.inr ⟨(goodPath_segments X hX s h1).2.1, (goodPath_segments X hX s h1).2.2⟩
  · exact Or.inl (hE s h1)

theorem posixJoin_good_slash (X : List Char) (h : goodPath X = true) :
    posixJoin [X, ['/']] = X ++ ['/'] := by
  have hne : X ≠ [] := goodPath_ne_nil X h
  have hfilter : ([X, ['/']] : List (List Char)).filter (fun s => s ≠ []) = [X, ['/']] := by
    rw [List.filter_cons_of_pos (by simp [hne]), List.filter_cons_of_pos (by simp),
      List.filter_nil]
  have hq_eq : List.intercalate ['/'] [X, ['/']] = X ++ ['/', '/'] := by
    rw [intercalate_cons_of_ne_nil _ _ _ (by simp), intercalate_singleton_seg,
      List.append_assoc]
    rfl
  have hsplit : (X ++ ['/', '/']).splitOn '/' = X.splitOn '/' ++ [[], []] := by
    rw [show (X ++ ['/', '/'] : List Char) = X ++ '/' :: ['/'] from rfl,
      splitOn_append_sep, (by decide : (['/'] : List Char).splitOn '/' = [[], []])]
  have hres : resolveSegments true ((X ++ ['/', '/']).splitOn '/') = X.splitOn '/' := by
    rw [hsplit, resolveSegments_mixed _ _ (good_mixed_append X h _ (by simp)),
      List.filter_append, filter_ne_nil_eq_self _ (fun s hs => (goodPath_segments X h s hs).1),
      filter_all_empty [[], []] (by simp), List.append_nil]
  have hlast : (X ++ ['/', '/']).getLast? = some '/' := by
    rw [List.getLast?_append_of_ne_nil _ (by simp)]
    rfl
  simp only [posixJoin, hfilter]
  rw [if_neg (by simp), hq_eq,
    posixNormalize_rel _ (by simp [hne]) (goodPath_head_append X h _), hres,
    if_neg (splitOn_ne_nil '/' X), if_pos hlast, goodPath_rep X]

theorem posixJoin_pre_file (P p : List Char) (hP : goodPath P = true)
    (hp : goodPath p = true) :
    posixJoin [P ++ ['/'], p] = P ++ ['/'] ++ p := by
  have hPne := goodPath_ne_nil P hP
  have hpne := goodPath_ne_nil p hp
  have hfilter : ([P ++ ['/'], p] : List (List Char)).filter (fun s => s ≠ []) =
      [P ++ ['/'], p] := by
    rw [List.filter_cons_of_pos (by simp), List.filter_cons_of_pos (by simp [hpne]),
      List.filter_nil]
  have hq_eq : List.intercalate ['/'] [P ++ ['/'], p] = P ++ '/' :: '/' :: p := by
    rw [intercalate_cons_of_ne_nil _ _ _ (by simp), intercalate_singleton_seg,
      List.append_assoc, List.append_assoc]
    rfl
  have hsplit : (P ++ '/' :: '/' :: p).splitOn '/' =
      P.splitOn '/' ++ [] :: p.splitOn '/' := by
    rw [splitOn_append_sep, splitOn_cons_sep]
  have hres : resolveSegments true ((P ++ '/' :: '/' :: p).splitOn '/') =
      P.splitOn '/' ++ p.splitOn '/' := by
    rw [hsplit, resolveSegments_mixed _ _ ?mix, List.filter_append,
      filter_ne_nil_eq_self _ (fun s hs => (goodPath_segments P hP s hs).1),
      List.filter_cons_of_neg (by simp),
      filter_ne_nil_eq_self _ (fun s hs => (goodPath_segments p hp s hs).1)]
    case mix =>
      intro s hs
      rcases List.mem_append.mp hs with h1 | h1
      · exact Or.inr ⟨(goodPath_segments P hP s h1).2.1, (goodPath_segments P hP s h1).2.2⟩
      · rcases List.mem_cons.mp h1 with h2 | h2
        · exact Or.inl h2
        · exact Or.inr ⟨(goodPath_segments p hp s h2).2.1, (goodPath_segments p hp s h2).2.2⟩
  have hr_ne : P.splitOn '/' ++ p.splitOn '/' ≠ [] := by
    intro hcon
    exact List.splitOnP_ne_nil _ P (List.append_eq_nil.mp hcon).1
  have hlast : ¬ (P ++ '/' :: '/' :: p).getLast? = some '/' := by
    rw [show P ++ '/' :: '/' :: p = (P ++ ['/', '/']) ++ p from by simp,
      List.getLast?_append_of_ne_nil _ hpne]
    exact goodPath_last p hp
  simp only [posixJoin, hfilter]
  rw [if_neg (by simp), hq_eq,
    posixNormalize_rel _ (by simp) (goodPath_head_append P hP _), hres,
    if_neg hr_ne, if_neg hlast,
    intercalate_append_of_ne_nil _ _ _ (splitOn_ne_nil '/' P) (splitOn_ne_nil '/' p),
    goodPath_rep P, goodPath_rep p]

theorem posixJoin_pre_empty (P : List Char) (hP : goodPath P = true) :
    posixJoin [P ++ ['/'], []] = P ++ ['/'] := by
  have hfilter : ([P ++ ['/'], []] : List (List Char)).filter (fun s => s ≠ []) =
      [P ++ ['/']] := by
    rw [List.filter_cons_of_pos (by simp), List.filter_cons_of_neg (by simp)]
    rfl
  have hsplit : (P ++ ['/']).splitOn '/' = P.splitOn '/' ++ [[]] := by
    rw [show (P ++ ['/'] : List Char) = P ++ '/' :: [] from rfl, splitOn_append_sep]
    rfl
  have hres : resolveSegments true ((P ++ ['/']).splitOn '/') = P.splitOn '/' := by
    rw [hsplit, resolveSegments_mixed _ _ (good_mixed_append P hP _ (by simp)),
      List.filter_append, filter_ne_nil_eq_self _ (fun s hs => (goodPath_segments P hP s hs).1),
      filter_all_empty [[]] (by simp), List.append_nil]
  have hlast : (P ++ ['/']).getLast? = some '/' := by
    rw [List.getLast?_append_of_ne_nil _ (by simp)]
    rfl
  simp only [posixJoin, hfilter]
  rw [if_neg (by simp), intercalate_singleton_seg,
    posixNormalize_rel _ (by simp) (goodPath_head_append P hP _), hres,
    if_neg (splitOn_ne_nil '/' P), if_pos hlast, goodPath_rep P]

theorem posixJoin_pre_dir (P p : List Char) (hP : goodPath P = true)
    (hp : goodPath p = true) :
    posixJoin [P ++ ['/'], p, ['/']] = P ++ ['/'] ++ p ++ ['/'] := by
  have hpne := goodPath_ne_nil p hp
  have hfilter : ([P ++ ['/'], p, ['/']] : List (List Char)).filter (fun s => s ≠ []) =
      [P ++ ['/'], p, ['/']] := by
    rw [List.filter_cons_of_pos (by simp), List.filter_cons_of_pos (by simp [hpne]),
      List.filter_cons_of_pos (by simp), List.filter_nil]
  have hq_eq : List.intercalate ['/'] [P ++ ['/'], p, ['/']] =
      P ++ '/' :: '/' :: (p ++ ['/', '/']) := by
    rw [intercalate_cons_of_ne_nil _ _ _ (by simp),
      intercalate_cons_of_ne_nil _ _ _ (by simp), intercalate_singleton_seg]
    simp [List.append_assoc]
  have hsplit : (P ++ '/' :: '/' :: (p ++ ['/', '/'])).splitOn '/' =
      P.splitOn '/' ++ [] :: (p.splitOn '/' ++ [[], []]) := by
    rw [splitOn_append_sep, splitOn_cons_sep,
      show (p ++ ['/', '/'] : List Char) = p ++ '/' :: ['/'] from rfl,
      splitOn_append_sep, (by decide : (['/'] : List Char).splitOn '/' = [[], []])]
  have hres : resolveSegments true ((P ++ '/' :: '/' :: (p ++ ['/', '/'])).splitOn '/') =
      P.splitOn '/' ++ p.splitOn '/' := by
    rw [hsplit, resolveSegments_mixed _ _ ?mix, List.filter_append,
      filter_ne_nil_eq_self _ (fun s hs => (goodPath_segments P hP s hs).1),
      List.filter_cons_of_neg (by simp), List.filter_append,
      filter_ne_nil_eq_self _ (fun s hs => (goodPath_segments p hp s hs).1),
      filter_all_empty [[], []] (by simp), List.append_nil]
    case mix =>
      intro s hs
      rcases List.mem_append.mp hs with h1 | h1
      · exact Or.inr ⟨(goodPath_segments P hP s h1).2.1, (goodPath_segments P hP s h1).2.2⟩
      · rcases List.mem_cons.mp h1 with h2 | h2
        · exact Or.inl h2
        · rcases List.mem_append.mp h2 with h3 | h3
          · exact Or.inr ⟨(goodPath_segments p hp s h3).2.1, (goodPath_segments p hp s h3).2.2⟩
          · left
            rcases List.mem_cons.mp h3 with h4 | h4
            · exact h4
            · simpa using h4
  have hr_ne : P.splitOn '/' ++ p.splitOn '/' ≠ [] := by
    intro hcon
    exact List.splitOnP_ne_nil _ P (List.append_eq_nil.mp hcon).1
  have hlast : (P ++ '/' :: '/' :: (p ++ ['/', '/'])).getLast? = some '/' := by
    rw [show P ++ '/' :: '/' :: (p ++ ['/', '/']) =
        (P ++ '/' :: '/' :: (p ++ ['/'])) ++ ['/'] from by simp,
      List.getLast?_append_of_ne_nil _ (by simp)]
    rfl
  simp only [posixJoin, hfilter]
  rw [if_neg (by simp), hq_eq,
    posixNormalize_rel _ (by simp) (goodPath_head_append P hP _), hres,
    if_neg hr_ne, if_pos hlast,
    intercalate_append_of_ne_nil _ _ _ (splitOn_ne_nil '/' P) (splitOn_ne_nil '/' p),
    goodPath_rep P, goodPath_rep p]

theorem posixJoin_pre_dir_empty (P : List Char) (hP : goodPath P = true) :
    posixJoin [P ++ ['/'], [], ['/']] = P ++ ['/'] := by
  have hfilter : ([P ++ ['/'], [], ['/']] : List (List Char)).filter (fun s => s ≠ []) =
      [P ++ ['/'], ['/']] := by
    rw [List.filter_cons_of_pos (by simp), List.filter_cons_of_neg (by simp),
      List.filter_cons_of_pos (by simp), List.filter_nil]
  have hq_eq : List.intercalate ['/'] [P ++ ['/'], ['/']] = P ++ ['/', '/', '/'] := by
    rw [intercalate_cons_of_ne_nil _ _ _ (by simp), intercalate_singleton_seg,
      List.append_assoc, List.append_assoc]
    rfl
  have hsplit : (P ++ ['/', '/', '/']).splitOn '/' = P.splitOn '/' ++ [[], [], []] := by
    rw [show (P ++ ['/', '/', '/'] : List Char) = P ++ '/' :: ['/', '/'] from rfl,
      splitOn_append_sep, (by decide : (['/', '/'] : List Char).splitOn '/' = [[], [], []])]
  have hres : resolveSegments true ((P ++ ['/', '/', '/']).splitOn '/') = P.splitOn '/' := by
    rw [hsplit, resolveSegments_mixed _ _ (good_mixed_append P hP _ (by simp)),
      List.filter_append, filter_ne_nil_eq_self _ (fun s hs => (goodPath_segments P hP s hs).1),
      filter_all_empty [[], [], []] (by simp), List.append_nil]
  have hlast : (P ++ ['/', '/', '/']).getLast? = some '/' := by
    rw [List.getLast?_append_of_ne_nil _ (by simp)]
    rfl
  simp only [posixJoin, hfilter]
  rw [if_neg (by simp), hq_eq,
    posixNormalize_rel _ (by simp) (goodPath_head_append P hP _), hres,
    if_neg (splitOn_ne_nil '/' P), if_pos hlast, goodPath_rep P]

theorem prefixValue_good (P : List Char) (hP : goodPath P = true) :
    PathPrefixer.prefixValue P = P ++ ['/'] := by
  rw [PathPrefixer.prefixValue,
    if_pos (List.length_pos.mpr (goodPath_ne_nil P hP)), posixJoin_good_slash P hP]

/-- C8 (amended): the prefix round trips hold for every prefix `P` that is
empty or made of good segments (no empty, `.` or `..` segment, hence no
leading, trailing or doubled `/`) and every canonical path `p` that is empty
or likewise made of good segments. -/
theorem claim8_roundtrip (P p : List Char)
    (hP : P = [] ∨ goodPath P = true) (hp : p = [] ∨ goodPath p = true) :
    PathPrefixer.stripFilePath P (PathPrefixer.prefixFilePath P p) = p ∧
    PathPrefixer.stripDirectoryPath P (PathPrefixer.prefixDirectoryPath P p) = p := by
  rcases hP with hP | hP
  · subst hP
    have hpre : PathPrefixer.prefixValue [] = [] := rfl
    rcases hp with hp | hp
    · subst hp
      exact ⟨by decide, by decide⟩
    · constructor
      · simp [PathPrefixer.prefixFilePath, PathPrefixer.stripFilePath, hpre]
      · rw [PathPrefixer.stripDirectoryPath, PathPrefixer.prefixDirectoryPath, hpre]
        rw [if_neg (by simp), posixJoin_good_slash p hp, PathPrefixer.stripFilePath, hpre]
        rw [List.length_nil, List.drop_zero, dropTrailingSlashes_append_slash p
          (goodPath_last p hp)]
  · have hpre := prefixValue_good P hP
    have hprelen : (PathPrefixer.prefixValue P).length > 0 := by
      rw [hpre]
      simp
    rcases hp with hp | hp
    · subst hp
      constructor
      · rw [PathPrefixer.stripFilePath, PathPrefixer.prefixFilePath, hpre,
          if_pos (by simp), posixJoin_pre_empty P hP, List.drop_length]
      · rw [PathPrefixer.stripDirectoryPath, PathPrefixer.prefixDirectoryPath, hpre,
          if_pos (by simp), posixJoin_pre_dir_empty P hP, PathPrefixer.stripFilePath, hpre,
          List.drop_length]
        rfl
    · constructor
      · rw [PathPrefixer.stripFilePath, PathPrefixer.prefixFilePath, hpre,
          if_pos (by simp), posixJoin_pre_file P p hP hp, List.drop_left]
      · rw [PathPrefixer.stripDirectoryPath, PathPrefixer.prefixDirectoryPath, hpre,
          if_pos (by simp), posixJoin_pre_dir P p hP hp, PathPrefixer.stripFilePath, hpre,
          List.append_assoc (P ++ ['/']) p ['/'], List.drop_left,
          dropTrailingSlashes_append_slash p (goodPath_last p hp)]

/-- C8 counterexample: with the configured prefix `"."` the constructor stores
the degenerate prefix `./`, and prefixing then stripping the file path `"a"`
yields `""`, not `"a"` — the round trip fails. -/
theorem claim8_counterexample :
    PathPrefixer.prefixValue ".".data = "./".data ∧
    PathPrefixer.prefixFilePath ".".data "a".data = "a".data ∧
    PathPrefixer.stripFilePath ".".data
      (PathPrefixer.prefixFilePath ".".data "a".data) = [] := by
  refine ⟨by decide, by decide, by decide⟩

theorem claim8_witness :
    ("pre".data = [] ∨ goodPath "pre".data = true) ∧
    ("a/b".data = [] ∨ goodPath "a/b".data = true) ∧
    (PathPrefixer.stripFilePath "pre".data
        (PathPrefixer.prefixFilePath "pre".data "a/b".data) = "a/b".data ∧
      PathPrefixer.stripDirectoryPath "pre".data
        (PathPrefixer.prefixDirectoryPath "pre".data "a/b".data) = "a/b".data) :=
  ⟨Or.inr (by decide), Or.inr (by decide),
    claim8_roundtrip "pre".data "a/b".data (Or.inr (by decide)) (Or.inr (by decide))⟩

set_option maxRecDepth 100000 in
example : md5Hex (utf8BytesAscii "contents") = "98bf7d8c15784f0a3d63204441e1e2aa" := by decide

/-- C3 (amended): when the path normalizer throws, the adapter is never
invoked — the operation's outcome does not depend on it — but the normalizer
exception does NOT propagate as-is: the `normalizePath` call sits inside the
operation's try-block, so the façade wraps it in the operation-family error
(`UnableToWriteFile`, `UnableToGetStat`) with the normalizer error as cause. -/
theorem claim3_normalizer_error_wrapped (path : String) (e : PathError)
    (h : normalizePath path = .error e) :
    (∀ aw, FileStorage.write aw path =
      .error (.unableToWriteFile (pathErrorToJs path e))) ∧
    (∀ astat, FileStorage.stat astat path =
      .error (.unableToGetStat (pathErrorToJs path e))) := by
  constructor
  · intro aw
    simp only [FileStorage.write, FileStorage.writeTraced, h]
  · intro astat
    simp only [FileStorage.stat, h]

/-- C3 counterexample: with an adapter whose `write` always succeeds,
`write("../x")` rejects with `UnableToWriteFile` wrapping the traversal
error, not with the raw `PathTraversalDetected` the claim promises; same for
`stat`. -/
theorem claim3_counterexample :
    FileStorage.write (fun _ s => (.ok (), s)) "../x" =
      .error (.unableToWriteFile (.pathTraversalDetected "../x")) ∧
    FileStorage.write (fun _ s => (.ok (), s)) "../x" ≠
      .error (.pathTraversalDetected "../x") ∧
    FileStorage.stat (fun np => .ok ⟨np, true⟩) "../x" =
      .error (.unableToGetStat (.pathTraversalDetected "../x")) := by
  refine ⟨by decide, by decide, by decide⟩

theorem claim3_witness :
    normalizePath "../x" = .error .pathTraversalDetected ∧
    ((∀ aw, FileStorage.write aw "../x" =
        .error (.unableToWriteFile (pathErrorToJs "../x" .pathTraversalDetected))) ∧
      (∀ astat, FileStorage.stat astat "../x" =
        .error (.unableToGetStat (pathErrorToJs "../x" .pathTraversalDetected)))) :=
  ⟨by decide, claim3_normalizer_error_wrapped "../x" .pathTraversalDetected (by decide)⟩

/-- C5 (amended): with no injected strategy and no adapter capability,
`prepareUpload` fails with the plain generic
`Error('The used adapter does not support prepared uploads.')`, not with the
`UnableToPrepareUploadRequest` taxonomy error, so the condition is not
detectable at the error-type level. -/
theorem claim5_prepare_upload_generic (path : String) :
    FileStorage.prepareUpload none none path =
      .error (.genericError "The used adapter does not support prepared uploads.") ∧
    isUnableToPrepareUploadRequestError (FileStorage.prepareUpload none none path) = false :=
  ⟨rfl, rfl⟩

/-- C5 counterexample: the concrete call fails with the generic error, which
is not the capability-taxonomy error the claim promises. -/
theorem claim5_counterexample :
    FileStorage.prepareUpload none none "here.txt" =
      .error (.genericError "The used adapter does not support prepared uploads.") ∧
    isUnableToPrepareUploadRequestError (FileStorage.prepareUpload none none "here.txt") =
      false := by
  refine ⟨by decide, by decide⟩

/-- C6 (amended): the façade closes the content stream only on the success
path: after a successful write the stream is destroyed, but when the
adapter's write rejects the catch-block wraps the error without running
`closeReadable`, leaving the stream exactly as the adapter left it — in
particular open, for an adapter that never consumed it. -/
theorem claim6_stream_closed_only_on_success :
    (∀ aw path, (FileStorage.writeTraced aw path).1 = .ok () →
      (FileStorage.writeTraced aw path).2 = true) ∧
    (∀ aw path np e s, normalizePath path = .ok np → aw np false = (.error e, s) →
      FileStorage.writeTraced aw path = (.error (.unableToWriteFile e), s)) := by
  constructor
  · intro aw path h
    cases hn : normalizePath path with
    | error e =>
      simp only [FileStorage.writeTraced, hn] at h
      cases h
    | ok np =>
      cases ha : aw np false with
      | mk r s =>
        cases r with
        | ok u =>
          simp only [FileStorage.writeTraced, hn, ha]
          simp [closeReadableM]
        | error e =>
          simp only [FileStorage.writeTraced, hn, ha] at h
          cases h
  · intro aw path np e s h1 h2
    simp only [FileStorage.writeTraced, h1, h2]

/-- C6 counterexample: an adapter that rejects without consuming the stream
leaves the stream open after `write` rejects — the input stream is not
closed/destroyed on the failure path. -/
theorem claim6_counterexample :
    FileStorage.writeTraced (fun _ s => (.error (.adapterFailure "boom"), s)) "path.txt" =
      (.error (.unableToWriteFile (.adapterFailure "boom")), false) ∧
    (FileStorage.writeTraced (fun _ s => (.error (.adapterFailure "boom"), s)) "path.txt").2 ≠
      true := by
  refine ⟨by decide, by decide⟩

theorem claim6_witness :
    ((FileStorage.writeTraced (fun _ s => (.ok (), s)) "p.txt").1 = .ok () ∧
      (FileStorage.writeTraced (fun _ s => (.ok (), s)) "p.txt").2 = true) ∧
    (normalizePath "p.txt" = .ok "p.txt" ∧
      FileStorage.writeTraced (fun _ s => (.error (.adapterFailure "boom"), s)) "p.txt" =
        (.error (.unableToWriteFile (.adapterFailure "boom")), false)) :=
  ⟨⟨by decide, claim6_stream_closed_only_on_success.1 _ "p.txt" (by decide)⟩,
    ⟨by decide,
      claim6_stream_closed_only_on_success.2 _ "p.txt" "p.txt" _ false (by decide) rfl⟩⟩

/-- C7 (amended): with the façade's visibility options carrying
`useVisibility: false`, `visibility(path)` short-circuits as the claim says —
the 'ignore' strategy returns the staged response and the 'error' strategy
throws `UnableToGetVisibility`, in both cases without invoking the adapter —
but `changeVisibility` merges only the per-call options, not the configured
visibility options, so a configured-only fallback does NOT short-circuit it:
the adapter is invoked; only per-call options carrying the fallback make
`changeVisibility` short-circuit with `UnableToSetVisibility`. -/
theorem claim7_visibility_fallback (path v staged : String) (msg : Option String) :
    (∀ av, FileStorage.visibility av
        ⟨some false, some (.ignore (some staged))⟩ path ⟨none, none⟩ = .ok staged) ∧
    (∀ av, FileStorage.visibility av
        ⟨some false, some (.errorStrat msg)⟩ path ⟨none, none⟩ =
      .error (.unableToGetVisibility .noCause)) ∧
    (∀ ac np, normalizePath path = .ok np →
      FileStorage.changeVisibility ac path v ⟨none, none⟩ =
        match ac np v with
        | .ok _ => .ok ()
        | .error e => .error (.unableToSetVisibility e)) ∧
    (∀ ac, FileStorage.changeVisibility ac path v
        ⟨some false, some (.errorStrat msg)⟩ = .error (.unableToSetVisibility .noCause)) := by
  refine ⟨fun av => rfl, fun av => rfl, ?_, fun ac => rfl⟩
  intro ac np h
  simp only [FileStorage.changeVisibility, VisibilityOptionsM.merge, h]
  rfl

/-- C7 counterexample: `changeVisibility` on a façade whose configured
visibility options carry `useVisibility: false` with the 'error' strategy
(per-call options empty, as in the claim's `changeVisibility(path, v)`) does
not throw without calling the adapter: with a succeeding adapter the call
resolves, and with a failing adapter the backend error appears as the cause
of the wrapper — the adapter was invoked. -/
theorem claim7_counterexample :
    FileStorage.changeVisibility (fun _ _ => .ok ()) "file.txt" "public" ⟨none, none⟩ =
      .ok () ∧
    FileStorage.changeVisibility (fun _ _ => .error (.adapterFailure "backend-called"))
      "file.txt" "public" ⟨none, none⟩ =
      .error (.unableToSetVisibility (.adapterFailure "backend-called")) := by
  refine ⟨by decide, by decide⟩

theorem claim7_witness :
    FileStorage.visibility (fun _ => .error (.adapterFailure "nope"))
      ⟨some false, some (.ignore (some "staged-x"))⟩ "file.txt" ⟨none, none⟩ =
      .ok "staged-x" ∧
    (normalizePath "file.txt" = .ok "file.txt" ∧
      FileStorage.changeVisibility (fun _ _ => .error (.adapterFailure "boom"))
        "file.txt" "public" ⟨none, none⟩ =
        .error (.unableToSetVisibility (.adapterFailure "boom"))) :=
  ⟨(claim7_visibility_fallback "file.txt" "public" "staged-x" none).1 _,
    ⟨by decide,
      (claim7_visibility_fallback "file.txt" "public" "staged-x" none).2.2.1
        (fun _ _ => .error (.adapterFailure "boom")) "file.txt" (by decide)⟩⟩

/-- C9 (amended): a failure raised by the underlying adapter sequence is
caught and re-thrown as `UnableToListDirectory` carrying `{path, deep}`
context and the original error as cause when the listing is consumed through
the async-iteration protocol; but `toArray` drains the raw generator directly
and lets the backend error propagate to the consumer unwrapped. -/
theorem claim9_listing_errors (dl : DirectoryListingM) (e : JsError)
    (h : dl.listing.afterError = some e) :
    dl.iterateAll = .error (.unableToListDirectory dl.path dl.deep e) ∧
    (∀ ns sorted, dl.toArray ns sorted = .error e) := by
  constructor
  · rw [DirectoryListingM.iterateAll, h]
  · intro ns sorted
    rw [DirectoryListingM.toArray, h]

/-- C9 counterexample: consuming a failing listing via `toArray` yields the
raw backend error, not the `UnableToListDirectory` wrapper the claim
promises for `toArray`. -/
theorem claim9_counterexample :
    DirectoryListingM.toArray ⟨⟨[], some (.adapterFailure "boom")⟩, "dir", false⟩ id true =
      .error (.adapterFailure "boom") ∧
    isUnableToListDirectoryError
      (DirectoryListingM.toArray ⟨⟨[], some (.adapterFailure "boom")⟩, "dir", false⟩ id true) =
      false := by
  refine ⟨by decide, by decide⟩

theorem claim9_witness :
    (⟨⟨[], some (.adapterFailure "boom")⟩, "dir", false⟩ :
        DirectoryListingM).listing.afterError = some (.adapterFailure "boom") ∧
    ((⟨⟨[], some (.adapterFailure "boom")⟩, "dir", false⟩ : DirectoryListingM).iterateAll =
        .error (.unableToListDirectory "dir" false (.adapterFailure "boom")) ∧
      (∀ ns sorted,
        DirectoryListingM.toArray ⟨⟨[], some (.adapterFailure "boom")⟩, "dir", false⟩
          ns sorted = .error (.adapterFailure "boom"))) :=
  ⟨rfl, claim9_listing_errors ⟨⟨[], some (.adapterFailure "boom")⟩, "dir", false⟩
    (.adapterFailure "boom") rfl⟩

set_option maxRecDepth 400000 in
theorem md5_contents_digest :
    md5Hex (utf8BytesAscii "contents") = "98bf7d8c15784f0a3d63204441e1e2aa" := by decide

theorem calculateChecksum_error_shape (ar : String → Except JsError (List Nat))
    (path : String) (opts : ChecksumOptionsM) (e : JsError)
    (h : FileStorage.calculateChecksum ar path opts = .error e) :
    isChecksumIsNotAvailable e = false := by
  rw [FileStorage.calculateChecksum] at h
  cases hr : FileStorage.read ar path with
  | error e1 =>
    rw [hr] at h
    injection h with h'
    rw [← h']
    rfl
  | ok contents =>
    rw [hr] at h
    dsimp only at h
    cases hcs : checksumFromStream contents opts with
    | error e2 =>
      rw [hcs] at h
      injection h with h'
      rw [← h']
      rfl
    | ok digest =>
      rw [hcs] at h
      cases h

/-- C4 (confirmed): when the adapter's checksum throws the recoverable
`ChecksumIsNotAvailable` signal, the façade computes the checksum itself from
the bytes delivered by `read`, and under the default MD5/hex options the
digest of content `"contents"` equals the independently computed MD5 of the
literal `"contents"` (`98bf7d8c15784f0a3d63204441e1e2aa`); the recoverable
signal never reaches the caller in any outcome, and a failing fallback read
surfaces as `UnableToGetChecksum`. -/
theorem claim4_checksum_fallback :
    (∀ ac ar (path np : String) (contents : List Nat) (algo' : String),
      normalizePath path = .ok np →
      ac np (⟨none, none⟩ : ChecksumOptionsM) = .error (.checksumIsNotAvailable algo') →
      ar np = .ok contents →
      FileStorage.checksum ac ar path ⟨none, none⟩ = .ok (md5Hex contents)) ∧
    (FileStorage.checksum (fun _ _ => .error (.checksumIsNotAvailable "md5"))
        (fun _ => .ok (utf8BytesAscii "contents")) "path.txt" ⟨none, none⟩ =
      .ok "98bf7d8c15784f0a3d63204441e1e2aa") ∧
    (∀ ac ar (path : String) (opts : ChecksumOptionsM) (e : JsError),
      FileStorage.checksum ac ar path opts = .error e →
      isChecksumIsNotAvailable e = false) ∧
    (∀ ac ar (path np : String) (opts : ChecksumOptionsM) (e : JsError),
      normalizePath path = .ok np →
      ac np opts = .error (.checksumIsNotAvailable "md5") →
      ar np = .error e →
      FileStorage.checksum ac ar path opts =
        .error (.unableToGetChecksum (.unableToReadFile e))) := by
  refine ⟨?_, ?_, ?_, ?_⟩
  · intro ac ar path np contents algo' h1 h2 h3
    simp only [FileStorage.checksum, h1, h2, isChecksumIsNotAvailable,
      FileStorage.calculateChecksum, FileStorage.read, h3, checksumFromStream]
    rfl
  · simp only [FileStorage.checksum, FileStorage.calculateChecksum, FileStorage.read,
      checksumFromStream]
    rw [show normalizePath "path.txt" = .ok "path.txt" from by decide]
    simp [isChecksumIsNotAvailable, md5_contents_digest]
  · intro ac ar path opts e h
    rw [FileStorage.checksum] at h
    cases hn : (match normalizePath path with
        | .error e0 => .error (pathErrorToJs path e0)
        | .ok np => ac np opts : Except JsError String) with
    | ok digest =>
      rw [hn] at h
      cases h
    | error e0 =>
      rw [hn] at h
      dsimp only at h
      by_cases hc : isChecksumIsNotAvailable e0 = true
      · rw [if_pos hc] at h
        exact calculateChecksum_error_shape ar path opts e h
      · rw [if_neg hc] at h
        injection h with h'
        rw [← h']
        rfl
  · intro ac ar path np opts e h1 h2 h3
    simp only [FileStorage.checksum, h1, h2, isChecksumIsNotAvailable,
      FileStorage.calculateChecksum, FileStorage.read, h3]
    rfl

theorem claim4_witness :
    (normalizePath "path.txt" = .ok "path.txt" ∧
      ((fun (_ : String) (_ : ChecksumOptionsM) =>
          (.error (.checksumIsNotAvailable "md5") : Except JsError String)) "path.txt"
          ⟨none, none⟩ = .error (.checksumIsNotAvailable "md5")) ∧
      ((fun (_ : String) => (.ok (utf8BytesAscii "contents") : Except JsError (List Nat)))
          "path.txt" = .ok (utf8BytesAscii "contents"))) ∧
    FileStorage.checksum
      (fun _ _ => .error (.checksumIsNotAvailable "md5"))
      (fun _ => .ok (utf8BytesAscii "contents")) "path.txt" ⟨none, none⟩ =
      .ok (md5Hex (utf8BytesAscii "contents")) :=
  ⟨⟨by decide, rfl, rfl⟩,
    claim4_checksum_fallback.1 (fun _ _ => .error (.checksumIsNotAvailable "md5"))
      (fun _ => .ok (utf8BytesAscii "contents")) "path.txt" "path.txt"
      (utf8BytesAscii "contents") "md5" (by decide) rfl rfl⟩

example : normalizePath "a/../b" = .ok "b" := by decide

example : normalizePath "a../b" = .error .pathTraversalDetected := by decide

example : normalizePath ".." = .error .pathTraversalDetected := by decide

example : normalizePath "../x" = .error .pathTraversalDetected := by decide

example : normalizePath "a/../../b" = .error .pathTraversalDetected := by decide

example : normalizePath "" = .ok "" := by decide

example : normalizePath "." = .ok "" := by decide

example : normalizePath "/path/to/dir/." = .ok "path/to/dir" := by decide

example : normalizePath "/dirname/" = .ok "dirname" := by decide

example : normalizePath "dirname/.." = .ok "" := by decide

example : normalizePath "dirname./" = .ok "dirname." := by decide

example : normalizePath "./dir/../././" = .ok "" := by decide

example : normalizePath "/something/deep/../../dirname" = .ok "dirname" := by decide

example : normalizePath "00004869/files/other/10-75..stl" = .ok "00004869/files/other/10-75..stl" := by
  decide

example : normalizePath "/dirname//subdir///subsubdir" = .ok "dirname/subdir/subsubdir" := by decide

example : normalizePath "example/path/..txt" = .ok "example/path/..txt" := by decide

example : normalizePath "/example/../path.txt" = .ok "path.txt" := by decide

example : normalizePath "something/../../../hehe" = .error .pathTraversalDetected := by decide

example : normalizePath "/something/../../.." = .error .pathTraversalDetected := by decide

example : normalizePath "some\x00/path.txt" = .error .corruptedPathDetected := by decide

example : normalizePath "s\ti.php" = .error .corruptedPathDetected := by decide

example :
    PathPrefixer.stripFilePath "pre".data
      (PathPrefixer.prefixFilePath "pre".data "a/b".data) = "a/b".data := by decide

example :
    PathPrefixer.stripFilePath ".".data
      (PathPrefixer.prefixFilePath ".".data "a".data) = "".data := by decide

example :
    PathPrefixer.stripDirectoryPath "pre".data
      (PathPrefixer.prefixDirectoryPath "pre".data "a/b".data) = "a/b".data := by decide

end Flystorage
